import Mathlib

/-!
# Verification of the `xdag` DAG container

Shallow embedding of `src/lib.rs` (crate `xdag`).  The Rust container is

```
pub struct Dag<NodeId, NodeData, EdgeData> {
    nodes: BTreeMap<NodeId, NodeData>,
    edges: BTreeMap<NodeId, BTreeMap<NodeId, EdgeData>>,
    back_edges: BTreeMap<NodeId, BTreeSet<NodeId>>,
}
```

`NodeId` is instantiated with `Nat`; a `BTreeMap` is modelled as an
association list sorted strictly by key (which is exactly the iteration
order a `BTreeMap` guarantees), a `BTreeSet` as a sorted list of keys.
Rust `panic!`/`unreachable!` sites are modelled by returning `none` from
the enclosing operation; `Result` is modelled by `Except`.
-/

namespace Xdag

variable {α β : Type}

/-- `BTreeMap::get` on a sorted association list: first binding of the key. -/
def lookupA : List (Nat × α) → Nat → Option α
  | [], _ => none
  | (k', v') :: rest, k => if k = k' then some v' else lookupA rest k

/-- `BTreeMap::insert` (the new map; the Rust return value of the previous
binding is recovered with `lookupA` before inserting). -/
def insertA : List (Nat × α) → Nat → α → List (Nat × α)
  | [], k, v => [(k, v)]
  | (k', v') :: rest, k, v =>
    if k < k' then (k, v) :: (k', v') :: rest
    else if k = k' then (k, v) :: rest
    else (k', v') :: insertA rest k v

/-- `BTreeMap::remove` (the new map): drops the first binding of the key. -/
def eraseA : List (Nat × α) → Nat → List (Nat × α)
  | [], _ => []
  | (k', v') :: rest, k => if k = k' then rest else (k', v') :: eraseA rest k

/-- The keys of an association list, in iteration order. -/
def keysA (l : List (Nat × α)) : List Nat := l.map Prod.fst

/-- `BTreeSet::insert` on a sorted list (no duplicate is created). -/
def insertS : List Nat → Nat → List Nat
  | [], k => [k]
  | k' :: rest, k =>
    if k < k' then k :: k' :: rest
    else if k = k' then k' :: rest
    else k' :: insertS rest k

/-- `BTreeSet::remove` on a sorted list. -/
def eraseS : List Nat → Nat → List Nat
  | [], _ => []
  | k' :: rest, k => if k = k' then rest else k' :: eraseS rest k

instance {ε σ : Type} [DecidableEq ε] [DecidableEq σ] : DecidableEq (Except ε σ) := fun a b =>
  match a, b with
  | .error e, .error f => decidable_of_iff (e = f) (by simp)
  | .error _, .ok _ => isFalse (by simp)
  | .ok _, .error _ => isFalse (by simp)
  | .ok x, .ok y => decidable_of_iff (x = y) (by simp)

/-- The error enum of `src/error.rs` (`NodeId` fixed to `Nat`). -/
inductive DagError (β : Type) where
  | nodeNotFound (id : Nat)
  | hasCycle (fromId toId : Nat) (data : β)
deriving DecidableEq

/-- The container of `src/lib.rs`. -/
structure Dag (α β : Type) where
  nodes : List (Nat × α)
  edges : List (Nat × List (Nat × β))
  back_edges : List (Nat × List Nat)
deriving DecidableEq

/-- `Dag::new` (lib.rs:54). -/
def Dag.new : Dag α β := ⟨[], [], []⟩

/-- `Dag::contains_node` (lib.rs:82). -/
def contains_node (d : Dag α β) (node_id : Nat) : Bool :=
  (lookupA d.nodes node_id).isSome

/-- `Dag::children` (lib.rs:225): the `(id, data)` pairs of `edges[node_id]`,
empty when the key is absent (the iterator wraps an `Option
`). -/
def children (d : Dag α β) (node_id : Nat) : List (Nat × β) :=
  (lookupA d.edges node_id).getD []

/-- `Dag::parents` (lib.rs:239): the members of `back_edges[node_id]`,
empty when the key is absent. -/
def parents (d : Dag α β) (node_id : Nat) : List Nat :=
  (lookupA d.back_edges node_id).getD []

/-- `Dag::contains_edge` (lib.rs:100). -/
def contains_edge (d : Dag α β) (f t : Nat) : Bool :=
  match lookupA d.edges f with
  | some ch => (lookupA ch t).isSome
  | none => false

/-- `Dag::insert_node` (lib.rs:89): ensure empty forward/backward entries,
then upsert into the node map, returning the previous payload. -/
def insert_node (d : Dag α β) (node_id : Nat) (node_data : α) :
    Option α × Dag α β :=
  let edges' := if (lookupA d.edges node_id).isSome then d.edges
                else insertA d.edges node_id []
  let back' := if (lookupA d.back_edges node_id).isSome then d.back_edges
               else insertA d.back_edges node_id []
  (lookupA d.nodes node_id, ⟨insertA d.nodes node_id node_data, edges', back'⟩)

/-- One iteration step of the DFS loop in `Dag::in_cycle` (lib.rs:63-79).
The Rust loop has no fuel: it terminates because every continuing
iteration adds a fresh node to `visited`.  The fuel argument only makes the
recursion structural; `in_cycle_fuel_stable` below shows the fuel chosen in
`in_cycle` is never exhausted, so the `0`-fuel default value is irrelevant. -/
def in_cycle_aux (d : Dag α β) : Nat → List Nat → List Nat → Bool
  | 0, _, _ => true
  | _ + 1, _, [] => false
  | fuel + 1, visited, top :: rest =>
    if top ∈ visited then true
    else
      in_cycle_aux d fuel (insertS visited top)
        (((children d top).map Prod.fst).reverse ++ rest)

/-- All edge targets occurring in the forward index (every node the DFS can
ever push). -/
def all_targets (d : Dag α β) : List Nat :=
  (d.edges.map (fun p => keysA p.2)).flatten

/-- `Dag::in_cycle` (lib.rs:63): iterative DFS from `node_id` with an
explicit stack (`Vec::push`/`Vec::pop`, so children pushed in ascending key
order are popped largest-first) and a visited set; a popped node that is
already visited makes it return `true`. -/
def in_cycle (d : Dag α β) (node_id : Nat) : Bool :=
  in_cycle_aux d ((node_id :: all_targets d).dedup.length + 1) [] [node_id]

/-- `Dag::insert_edge` (lib.rs:113): endpoint checks, speculative forward
insertion, DFS check, rollback-or-commit.  `none` models the
`unreachable!` panics. -/
def insert_edge (d : Dag α β) (f t : Nat) (edge_data : β) :
    Option (Except (DagError β) (Option β) × Dag α β) :=
  if contains_node d f = false then some (.error (.nodeNotFound f), d)
  else if contains_node d t = false then some (.error (.nodeNotFound t), d)
  else
    match lookupA d.edges f with
    | none => none
    | some ch =>
      let result := lookupA ch t
      let d1 : Dag α β := { d with edges := insertA d.edges f (insertA ch t edge_data) }
      if in_cycle d1 f then
        match lookupA d1.edges f with
        | none => none
        | some ch2 =>
          match lookupA ch2 t with
          | none => none
          | some data =>
            some (.error (.hasCycle f t data),
              { d1 with edges := insertA d1.edges f (eraseA ch2 t) })
      else
        match lookupA d1.back_edges t with
        | none => none
        | some ps =>
          some (.ok result, { d1 with back_edges := insertA d1.back_edges t (insertS ps f) })

/-- `Dag::remove_edge` (lib.rs:157): endpoint checks, remove the forward
entry (if present), unconditionally remove `f` from `t`'s backward set. -/
def remove_edge (d : Dag α β) (f t : Nat) :
    Option (Except (DagError β) (Option β) × Dag α β) :=
  if contains_node d f = false then some (.error (.nodeNotFound f), d)
  else if contains_node d t = false then some (.error (.nodeNotFound t), d)
  else
    match lookupA d.edges f with
    | none => none
    | some ch =>
      let result := lookupA ch t
      let d1 : Dag α β := { d with edges := insertA d.edges f (eraseA ch t) }
      match lookupA d1.back_edges t with
      | none => none
      | some ps =>
        some (.ok result, { d1 with back_edges := insertA d1.back_edges t (eraseS ps f) })

/-- The two edge-removal loops of `Dag::remove_node` (lib.rs:191-218): each
`remove_edge` call has both its `Result` and its `Option` unwrapped with
`unreachable!`, so anything other than `Ok(Some(_))` is a panic (`none`). -/
def remove_edges_loop (d : Dag α β) : List (Nat × Nat) → Option (List β × Dag α β)
  | [] => some ([], d)
  | (f, t) :: rest =>
    match remove_edge d f t with
    | some (.ok (some b), d1) =>
      match remove_edges_loop d1 rest with
      | some (bs, d2) => some (b :: bs, d2)
      | none => none
    | _ => none

/-- `Dag::remove_node` (lib.rs:184): children ids collected first from the
current state, removed one by one; then parent ids collected from the
mutated state, removed one by one; finally the node entry is removed.  The
`edges`/`back_edges` keys of the node are left in place. -/
def remove_node (d : Dag α β) (node_id : Nat) :
    Option (Option α × List β × Dag α β) :=
  if contains_node d node_id = false then some (none, [], d)
  else
    let child_ids := (children d node_id).map Prod.fst
    match remove_edges_loop d (child_ids.map (fun c => (node_id, c))) with
    | none => none
    | some (bs1, d1) =>
      let parent_ids := parents d1 node_id
      match remove_edges_loop d1 (parent_ids.map (fun p => (p, node_id))) with
      | none => none
      | some (bs2, d2) =>
        some (lookupA d2.nodes node_id, bs1 ++ bs2,
          { d2 with nodes := eraseA d2.nodes node_id })

/-- `Dag::get_edge` (lib.rs:305). -/
def get_edge (d : Dag α β) (f t : Nat) : Option (Except (DagError β) (Option β)) :=
  if contains_node d f = false then some (.error (.nodeNotFound f))
  else if contains_node d t = false then some (.error (.nodeNotFound t))
  else
    match lookupA d.edges f with
    | none => none
    | some ch => some (.ok (lookupA ch t))

/-- `Dag::get_edge_mut` (lib.rs:328): same checks and lookups as `get_edge`
(the mutable borrow it hands out is not observable in a pure model). -/
def get_edge_mut (d : Dag α β) (f t : Nat) : Option (Except (DagError β) (Option β)) :=
  if contains_node d f = false then some (.error (.nodeNotFound f))
  else if contains_node d t = false then some (.error (.nodeNotFound t))
  else
    match lookupA d.edges f with
    | none => none
    | some ch => some (.ok (lookupA ch t))

/-- The forward-edge relation of a container state: `x → y` when
`contains_edge x y` holds. -/
def E (d : Dag α β) (x y : Nat) : Prop := contains_edge d x y = true

/-- States reachable from `Dag::new` by completed public operations (a
`remove_node` call that panics produces no resulting state). -/
inductive Reach : Dag α β → Prop where
  | empty : Reach Dag.new
  | insNode (d : Dag α β) (i : Nat) (a : α) : Reach d → Reach (insert_node d i a).2
  | insEdge (d : Dag α β) (f t : Nat) (b : β) (r : Except (DagError β) (Option β))
      (d' : Dag α β) : Reach d → insert_edge d f t b = some (r, d') → Reach d'
  | remEdge (d : Dag α β) (f t : Nat) (r : Except (DagError β) (Option β))
      (d' : Dag α β) : Reach d → remove_edge d f t = some (r, d') → Reach d'
  | remNode (d : Dag α β) (i : Nat) (r : Option α) (bs : List β)
      (d' : Dag α β) : Reach d → remove_node d i = some (r, bs, d') → Reach d'

theorem reach_of_eq {d d' : Dag α β} (h : Reach d) (e : d = d') : Reach d' := e ▸ h

/-! ## Lemmas about the sorted-association-list primitives -/

/-- Keys of a list with sorted, hence pairwise distinct, keys. -/
def SortedK (l : List (Nat × α)) : Prop := (keysA l).Pairwise (· < ·)

theorem keysA_nil : keysA ([] : List (Nat × α)) = [] := rfl

theorem keysA_cons (k : Nat) (v : α) (l : List (Nat × α)) :
    keysA ((k, v) :: l) = k :: keysA l := rfl

theorem lookupA_isSome_iff (l : List (Nat × α)) (k : Nat) :
    (lookupA l k).isSome = true ↔ k ∈ keysA l := by
  induction l with
  | nil => simp [lookupA, keysA]
  | cons p rest ih =>
    obtain ⟨k', v'⟩ := p
    by_cases h : k = k' <;> simp [lookupA, keysA_cons, h, ih]

theorem lookupA_eq_none_of_not_mem {l : List (Nat × α)} {k : Nat}
    (h : k ∉ keysA l) : lookupA l k = none := by
  cases hl : lookupA l k with
  | none => rfl
  | some v => exact absurd ((lookupA_isSome_iff l k).mp (by simp [hl])) h

theorem mem_of_lookupA {l : List (Nat × α)} {k : Nat} {v : α}
    (h : lookupA l k = some v) : (k, v) ∈ l := by
  induction l with
  | nil => simp [lookupA] at h
  | cons p rest ih =>
    obtain ⟨k', v'⟩ := p
    by_cases hk : k = k'
    · simp [lookupA, hk] at h
      simp [hk, h]
    · simp [lookupA, hk] at h
      exact List.mem_cons_of_mem _ (ih h)

theorem lookupA_insertA_self (l : List (Nat × α)) (k : Nat) (v : α) :
    lookupA (insertA l k v) k = some v := by
  induction l with
  | nil => simp [insertA, lookupA]
  | cons p rest ih =>
    obtain ⟨k', v'⟩ := p
    by_cases h1 : k < k'
    · simp [insertA, h1, lookupA]
    · by_cases h2 : k = k' <;> simp [insertA, h1, h2, lookupA, ih]

theorem lookupA_insertA_ne (l : List (Nat × α)) {k k' : Nat} (v : α)
    (h : k' ≠ k) : lookupA (insertA l k v) k' = lookupA l k' := by
  induction l with
  | nil => simp [insertA, lookupA, h]
  | cons p rest ih =>
    obtain ⟨k1, v1⟩ := p
    by_cases h1 : k < k1
    · simp [insertA, h1, lookupA, h]
    · by_cases h2 : k = k1
      · subst h2
        simp [insertA, h1, lookupA, h]
      · by_cases h3 : k' = k1 <;> simp [insertA, h1, h2, lookupA, h3, ih]

theorem lookupA_eraseA_ne (l : List (Nat × α)) {k k' : Nat}
    (h : k' ≠ k) : lookupA (eraseA l k) k' = lookupA l k' := by
  induction l with
  | nil => simp [eraseA]
  | cons p rest ih =>
    obtain ⟨k1, v1⟩ := p
    by_cases h1 : k = k1
    · subst h1
      simp [eraseA, lookupA, h]
    · by_cases h2 : k' = k1 <;> simp [eraseA, h1, lookupA, h2, ih]

theorem eraseA_sublist (l : List (Nat × α)) (k : Nat) : (eraseA l k).Sublist l := by
  induction l with
  | nil => simp [eraseA]
  | cons p rest ih =>
    obtain ⟨k1, v1⟩ := p
    by_cases h1 : k = k1
    · simpa [eraseA, h1] using List.sublist_cons_self _ _
    · simpa [eraseA, h1] using List.Sublist.cons₂ (k1, v1) ih

theorem mem_keysA_insertA (l : List (Nat × α)) (k m : Nat) (v : α) :
    m ∈ keysA (insertA l k v) ↔ m = k ∨ m ∈ keysA l := by
  induction l with
  | nil => simp [insertA, keysA]
  | cons p rest ih =>
    obtain ⟨k1, v1⟩ := p
    by_cases h1 : k < k1
    · have e1 : insertA ((k1, v1) :: rest) k v = (k, v) :: (k1, v1) :: rest := by
        simp [insertA, h1]
      rw [e1]
      simp only [keysA_cons, List.mem_cons]
    · by_cases h2 : k = k1
      · subst h2
        have e1 : insertA ((k, v1) :: rest) k v = (k, v) :: rest := by
          simp [insertA, h1]
        rw [e1]
        simp only [keysA_cons, List.mem_cons]
        tauto
      · have e1 : insertA ((k1, v1) :: rest) k v = (k1, v1) :: insertA rest k v := by
          simp [insertA, h1, h2]
        rw [e1]
        simp only [keysA_cons, List.mem_cons, ih]
        tauto

theorem eraseA_of_not_mem {l : List (Nat × α)} {k : Nat}
    (h : k ∉ keysA l) : eraseA l k = l := by
  induction l with
  | nil => rfl
  | cons p rest ih =>
    obtain ⟨k1, v1⟩ := p
    simp [keysA_cons] at h
    simp [eraseA, h.1, ih h.2]

theorem lookupA_eraseA_self {l : List (Nat × α)} (k : Nat)
    (h : (keysA l).Nodup) : lookupA (eraseA l k) k = none := by
  induction l with
  | nil => rfl
  | cons p rest ih =>
    obtain ⟨k1, v1⟩ := p
    simp [keysA_cons] at h
    by_cases h1 : k = k1
    · subst h1
      simp [eraseA]
      exact lookupA_eq_none_of_not_mem h.1
    · simp [eraseA, h1, lookupA, ih h.2]

theorem nodup_of_sortedK {l : List (Nat × α)} (h : SortedK l) : (keysA l).Nodup :=
  h.imp Nat.ne_of_lt

theorem sortedK_insertA {l : List (Nat × α)} (k : Nat) (v : α)
    (h : SortedK l) : SortedK (insertA l k v) := by
  induction l with
  | nil => simp [SortedK, insertA, keysA]
  | cons p rest ih =>
    obtain ⟨k1, v1⟩ := p
    rw [SortedK, keysA_cons, List.pairwise_cons] at h
    by_cases h1 : k < k1
    · have e1 : insertA ((k1, v1) :: rest) k v = (k, v) :: (k1, v1) :: rest := by
        simp [insertA, h1]
      rw [SortedK, e1, keysA_cons, keysA_cons, List.pairwise_cons, List.pairwise_cons]
      refine ⟨?_, h.1, h.2⟩
      intro b hb
      rcases List.mem_cons.mp hb with rfl | hb
      · exact h1
      · exact Nat.lt_trans h1 (h.1 b hb)
    · by_cases h2 : k = k1
      · subst h2
        have e1 : insertA ((k, v1) :: rest) k v = (k, v) :: rest := by
          simp [insertA, h1]
        rw [SortedK, e1, keysA_cons, List.pairwise_cons]
        exact h
      · have e1 : insertA ((k1, v1) :: rest) k v = (k1, v1) :: insertA rest k v := by
          simp [insertA, h1, h2]
        rw [SortedK, e1, keysA_cons, List.pairwise_cons]
        refine ⟨?_, ih h.2⟩
        intro b hb
        rcases (mem_keysA_insertA rest k b v).mp hb with rfl | hb
        · omega
        · exact h.1 b hb

theorem sortedK_eraseA {l : List (Nat × α)} (k : Nat)
    (h : SortedK l) : SortedK (eraseA l k) :=
  h.sublist ((eraseA_sublist l k).map Prod.fst)

theorem insertA_eq_self {l : List (Nat × α)} {k : Nat} {v : α}
    (hs : SortedK l) (h : lookupA l k = some v) : insertA l k v = l := by
  induction l with
  | nil => simp [lookupA] at h
  | cons p rest ih =>
    obtain ⟨k1, v1⟩ := p
    rw [SortedK, keysA_cons, List.pairwise_cons] at hs
    by_cases h2 : k = k1
    · subst h2
      simp [lookupA] at h
      simp [insertA, h]
    · simp [lookupA, h2] at h
      have hk1 : k1 < k := by
        have := hs.1 k ((lookupA_isSome_iff rest k).mp (by simp [h]))
        omega
      simp [insertA, Nat.lt_asymm hk1, h2, ih hs.2 h]

theorem eraseA_insertA {l : List (Nat × α)} (k : Nat) (v : α)
    (hs : SortedK l) : eraseA (insertA l k v) k = eraseA l k := by
  induction l with
  | nil => simp [insertA, eraseA]
  | cons p rest ih =>
    obtain ⟨k1, v1⟩ := p
    rw [SortedK, keysA_cons, List.pairwise_cons] at hs
    by_cases h1 : k < k1
    · have hnm : k ∉ keysA ((k1, v1) :: rest) := by
        rw [keysA_cons]
        intro hmem
        rcases List.mem_cons.mp hmem with rfl | hmem
        · omega
        · have := hs.1 k hmem
          omega
      have e1 : insertA ((k1, v1) :: rest) k v = (k, v) :: (k1, v1) :: rest := by
        simp [insertA, h1]
      rw [e1, eraseA_of_not_mem hnm]
      simp [eraseA]
    · by_cases h2 : k = k1
      · subst h2
        have e1 : insertA ((k, v1) :: rest) k v = (k, v) :: rest := by
          simp [insertA, h1]
        rw [e1]
        simp [eraseA]
      · have e1 : insertA ((k1, v1) :: rest) k v = (k1, v1) :: insertA rest k v := by
          simp [insertA, h1, h2]
        rw [e1]
        simp [eraseA, h2, ih hs.2]

theorem insertA_insertA (l : List (Nat × α)) (k : Nat) (v w : α) :
    insertA (insertA l k v) k w = insertA l k w := by
  induction l with
  | nil => simp [insertA]
  | cons p rest ih =>
    obtain ⟨k1, v1⟩ := p
    by_cases h1 : k < k1
    · simp [insertA, h1]
    · by_cases h2 : k = k1 <;> simp [insertA, h1, h2, ih]

theorem mem_insertS (l : List Nat) (k a : Nat) :
    a ∈ insertS l k ↔ a = k ∨ a ∈ l := by
  induction l with
  | nil => simp [insertS]
  | cons k1 rest ih =>
    by_cases h1 : k < k1
    · simp [insertS, h1]
    · by_cases h2 : k = k1
      · subst h2
        simp [insertS, h1]
      · simp [insertS, h1, h2, ih]
        tauto

theorem sortedS_insertS {l : List Nat} (k : Nat)
    (h : l.Pairwise (· < ·)) : (insertS l k).Pairwise (· < ·) := by
  induction l with
  | nil => simp [insertS]
  | cons k1 rest ih =>
    rw [List.pairwise_cons] at h
    by_cases h1 : k < k1
    · have e1 : insertS (k1 :: rest) k = k :: k1 :: rest := by
        simp [insertS, h1]
      rw [e1, List.pairwise_cons, List.pairwise_cons]
      refine ⟨?_, h.1, h.2⟩
      intro b hb
      rcases List.mem_cons.mp hb with rfl | hb
      · exact h1
      · exact Nat.lt_trans h1 (h.1 b hb)
    · by_cases h2 : k = k1
      · subst h2
        have e1 : insertS (k :: rest) k = k :: rest := by
          simp [insertS, h1]
        rw [e1, List.pairwise_cons]
        exact h
      · have e1 : insertS (k1 :: rest) k = k1 :: insertS rest k := by
          simp [insertS, h1, h2]
        rw [e1, List.pairwise_cons]
        refine ⟨?_, ih h.2⟩
        intro b hb
        rcases (mem_insertS rest k b).mp hb with rfl | hb
        · omega
        · exact h.1 b hb

theorem eraseS_sublist (l : List Nat) (k : Nat) : (eraseS l k).Sublist l := by
  induction l with
  | nil => simp [eraseS]
  | cons k1 rest ih =>
    by_cases h1 : k = k1
    · simpa [eraseS, h1] using List.sublist_cons_self _ _
    · simpa [eraseS, h1] using List.Sublist.cons₂ k1 ih

theorem mem_eraseS_of {l : List Nat} {k a : Nat}
    (ha : a ∈ l) (hne : a ≠ k) : a ∈ eraseS l k := by
  induction l with
  | nil => simp at ha
  | cons k1 rest ih =>
    by_cases h1 : k = k1
    · subst h1
      rcases List.mem_cons.mp ha with rfl | ha
      · exact absurd rfl hne
      · simpa [eraseS] using ha
    · rcases List.mem_cons.mp ha with rfl | ha
      · simp [eraseS, h1]
      · simp [eraseS, h1, ih ha]

theorem not_mem_eraseS {l : List Nat} (k : Nat)
    (h : l.Nodup) : k ∉ eraseS l k := by
  induction l with
  | nil => simp [eraseS]
  | cons k1 rest ih =>
    rw [List.nodup_cons] at h
    by_cases h1 : k = k1
    · subst h1
      simpa [eraseS] using h.1
    · have e1 : eraseS (k1 :: rest) k = k1 :: eraseS rest k := by
        simp [eraseS, h1]
      rw [e1]
      intro hmem
      rcases List.mem_cons.mp hmem with rfl | hmem
      · exact h1 rfl
      · exact ih h.2 hmem

theorem eraseS_of_not_mem {l : List Nat} {k : Nat}
    (h : k ∉ l) : eraseS l k = l := by
  induction l with
  | nil => rfl
  | cons k1 rest ih =>
    simp only [List.mem_cons, not_or] at h
    simp [eraseS, h.1, ih h.2]

theorem sortedS_eraseS {l : List Nat} (k : Nat)
    (h : l.Pairwise (· < ·)) : (eraseS l k).Pairwise (· < ·) :=
  h.sublist (eraseS_sublist l k)

/-! ## Soundness of the DFS in `in_cycle`

The DFS of `in_cycle` is *complete* for cycle detection: whenever it
returns `false`, no node on the stack can reach a visited node or come
back to itself.  (It is *not* sound: it can also return `true` on acyclic
graphs, see claim C2.) -/

theorem E_iff_mem_children (d : Dag α β) (x y : Nat) :
    E d x y ↔ y ∈ (children d x).map Prod.fst := by
  unfold E contains_edge children
  cases h : lookupA d.edges x with
  | none => simp [h]
  | some ch =>
    show (lookupA ch y).isSome = true ↔ y ∈ keysA ch
    exact lookupA_isSome_iff ch y

/-- If the DFS loop terminates with `false`, no element still on the stack
is in the visited set (it would have been popped later and reported). -/
theorem in_cycle_aux_false_not_visited (d : Dag α β) :
    ∀ fuel visited stack, in_cycle_aux d fuel visited stack = false →
      ∀ z ∈ stack, z ∉ visited := by
  intro fuel
  induction fuel with
  | zero =>
    intro visited stack h
    simp [in_cycle_aux] at h
  | succ n ih =>
    intro visited stack h z hz
    cases stack with
    | nil => simp at hz
    | cons top rest =>
      simp only [in_cycle_aux] at h
      by_cases hv : top ∈ visited
      · rw [if_pos hv] at h
        cases h
      · rw [if_neg hv] at h
        rcases List.mem_cons.mp hz with rfl | hz'
        · exact hv
        · intro hzv
          exact ih _ _ h z (List.mem_append_right _ hz')
            ((mem_insertS visited top z).mpr (Or.inr hzv))

/-- Key invariant of the DFS loop: if it returns `false`, then no node `x`
on the stack has a non-trivial path to a visited node or back to `x`
itself. -/
theorem in_cycle_aux_false_no_path (d : Dag α β) :
    ∀ fuel visited stack, in_cycle_aux d fuel visited stack = false →
      ∀ x ∈ stack, ∀ y, Relation.TransGen (E d) x y → y ∉ visited ∧ y ≠ x := by
  intro fuel
  induction fuel with
  | zero =>
    intro visited stack h
    simp [in_cycle_aux] at h
  | succ n ih =>
    intro visited stack h x hx y hxy
    cases stack with
    | nil => simp at hx
    | cons top rest =>
      simp only [in_cycle_aux] at h
      by_cases hv : top ∈ visited
      · rw [if_pos hv] at h
        cases h
      · rw [if_neg hv] at h
        have hD := in_cycle_aux_false_not_visited d n _ _ h
        rcases List.mem_cons.mp hx with rfl | hx'
        · rcases Relation.TransGen.head'_iff.mp hxy with ⟨c, hc, hcy⟩
          have hcs : c ∈ ((children d x).map Prod.fst).reverse ++ rest :=
            List.mem_append_left _
              (List.mem_reverse.mpr ((E_iff_mem_children d x c).mp hc))
          rcases Relation.reflTransGen_iff_eq_or_transGen.mp hcy with rfl | hcy'
          · have hyv := hD y hcs
            refine ⟨fun hyv0 => hyv ((mem_insertS visited x y).mpr (Or.inr hyv0)), ?_⟩
            intro hyx
            subst hyx
            exact hyv ((mem_insertS visited y y).mpr (Or.inl rfl))
          · have hrec := ih _ _ h c hcs y hcy'
            refine ⟨fun hyv0 => hrec.1 ((mem_insertS visited x y).mpr (Or.inr hyv0)), ?_⟩
            intro hyx
            subst hyx
            exact hrec.1 ((mem_insertS visited y y).mpr (Or.inl rfl))
        · have hrec := ih _ _ h x (List.mem_append_right _ hx') y hxy
          exact ⟨fun hyv0 => hrec.1 ((mem_insertS visited top y).mpr (Or.inr hyv0)), hrec.2⟩

/-- Completeness of the cycle check: a `false` answer really means there is
no cycle through the root. -/
theorem in_cycle_false_no_cycle (d : Dag α β) (root : Nat)
    (h : in_cycle d root = false) : ¬ Relation.TransGen (E d) root root := by
  intro hcyc
  unfold in_cycle at h
  exact (in_cycle_aux_false_no_path d _ _ _ h root (by simp) root hcyc).2 rfl

theorem children_subset_all_targets (d : Dag α β) (x z : Nat)
    (hz : z ∈ (children d x).map Prod.fst) : z ∈ all_targets d := by
  unfold children at hz
  cases h : lookupA d.edges x with
  | none =>
    rw [h] at hz
    simp at hz
  | some ch =>
    rw [h] at hz
    unfold all_targets
    simp only [List.mem_flatten]
    exact ⟨keysA ch, List.mem_map.mpr ⟨(x, ch), mem_of_lookupA h, rfl⟩, hz⟩

/-- The loop of `in_cycle` never exhausts its fuel: one more unit of fuel
gives the same answer as soon as the fuel exceeds the number of
yet-unvisited candidate nodes.  Hence the fuel in `in_cycle` (one more than
the number of distinct candidates) is an artifact of the embedding, not a
behavioural difference from the un-fuelled Rust loop. -/
theorem in_cycle_aux_fuel_stable (d : Dag α β) (S : List Nat)
    (hS : ∀ z ∈ all_targets d, z ∈ S) :
    ∀ fuel visited stack, (∀ z ∈ stack, z ∈ S) →
      (S.toFinset.filter (fun a => a ∉ visited)).card < fuel →
      in_cycle_aux d fuel visited stack = in_cycle_aux d (fuel + 1) visited stack := by
  intro fuel
  induction fuel with
  | zero =>
    intro visited stack _ hcard
    omega
  | succ n ih =>
    intro visited stack hstack hcard
    cases stack with
    | nil => simp [in_cycle_aux]
    | cons top rest =>
      show in_cycle_aux d (n + 1) visited (top :: rest) =
        in_cycle_aux d (n + 1 + 1) visited (top :: rest)
      simp only [in_cycle_aux]
      by_cases hv : top ∈ visited
      · rw [if_pos hv, if_pos hv]
      · rw [if_neg hv, if_neg hv]
        have htopS : top ∈ S := hstack top (List.mem_cons_self _ _)
        have hsubset : S.toFinset.filter (fun a => a ∉ insertS visited top) ⊆
            S.toFinset.filter (fun a => a ∉ visited) := by
          intro a ha
          simp only [Finset.mem_filter] at ha ⊢
          exact ⟨ha.1, fun hav => ha.2 ((mem_insertS visited top a).mpr (Or.inr hav))⟩
        have hlt : (S.toFinset.filter (fun a => a ∉ insertS visited top)).card <
            (S.toFinset.filter (fun a => a ∉ visited)).card := by
          apply Finset.card_lt_card
          rw [Finset.ssubset_iff_of_subset hsubset]
          refine ⟨top, Finset.mem_filter.mpr ⟨List.mem_toFinset.mpr htopS, hv⟩, ?_⟩
          intro hmem
          exact (Finset.mem_filter.mp hmem).2 ((mem_insertS visited top top).mpr (Or.inl rfl))
        apply ih
        · intro z hz
          rcases List.mem_append.mp hz with hz | hz
          · exact hS z (children_subset_all_targets d top z (List.mem_reverse.mp hz))
          · exact hstack z (List.mem_cons_of_mem _ hz)
        · omega

/-- The fuel passed by `in_cycle` is adequate: any larger fuel computes the
same answer. -/
theorem in_cycle_fuel_adequate (d : Dag α β) (root : Nat) (k : Nat) :
    in_cycle_aux d ((root :: all_targets d).dedup.length + 1 + k) [] [root] =
      in_cycle d root := by
  induction k with
  | zero => rfl
  | succ n ih =>
    rw [← ih]
    have hbase : ∀ m, (root :: all_targets d).dedup.length + 1 ≤ m →
        ((root :: all_targets d).dedup.toFinset.filter (fun a => a ∉ ([] : List Nat))).card < m := by
      intro m hm
      have h1 : ((root :: all_targets d).dedup.toFinset.filter
          (fun a => a ∉ ([] : List Nat))).card ≤ (root :: all_targets d).dedup.toFinset.card :=
        Finset.card_filter_le _ _
      have h2 : (root :: all_targets d).dedup.toFinset.card ≤ (root :: all_targets d).dedup.length :=
        (root :: all_targets d).dedup.toFinset_card_le
      omega
    have := in_cycle_aux_fuel_stable d (root :: all_targets d).dedup
      (fun z hz => by simp [List.mem_dedup, hz])
      ((root :: all_targets d).dedup.length + 1 + n) [] [root]
      (by
        intro z hz
        simp at hz
        simp [List.mem_dedup, hz])
      (hbase _ (by omega))
    exact this.symm

/-- A relation contained in `<` on `Nat` has no non-trivial cycles. -/
theorem transGen_lt {r : Nat → Nat → Prop} (hr : ∀ x y, r x y → x < y)
    {a b : Nat} (h : Relation.TransGen r a b) : a < b := by
  induction h with
  | single h1 => exact hr _ _ h1
  | tail _ h1 ih => exact Nat.lt_trans ih (hr _ _ h1)

theorem transGen_irrefl_of_lt {r : Nat → Nat → Prop} (hr : ∀ x y, r x y → x < y) :
    ∀ n, ¬ Relation.TransGen r n n :=
  fun n h => Nat.lt_irrefl n (transGen_lt hr h)

/-! ## Concrete reachable states used to exercise the code

All of them are produced by chains of public operations from the empty
container; the `Reach` proofs below replay those chains. -/

/-- Nodes `1`, `2`, `3` inserted (payload `0`), no edges yet. -/
def dag3 : Dag Nat Nat :=
  ⟨[(1, 0), (2, 0), (3, 0)], [(1, []), (2, []), (3, [])], [(1, []), (2, []), (3, [])]⟩

/-- `dag3` after `insert_edge 1 2 20` and `insert_edge 2 3 30` (both succeed). -/
def dagA2 : Dag Nat Nat :=
  ⟨[(1, 0), (2, 0), (3, 0)], [(1, [(2, 20)]), (2, [(3, 30)]), (3, [])],
   [(1, []), (2, [1]), (3, [2])]⟩

/-- `dag3` after `insert_edge 1 3 10`, `insert_edge 1 2 20`,
`insert_edge 2 3 30` (all succeed): a diamond-free DAG where the edge
`1 → 3` carries payload `10`. -/
def dagB3 : Dag Nat Nat :=
  ⟨[(1, 0), (2, 0), (3, 0)], [(1, [(2, 20), (3, 10)]), (2, [(3, 30)]), (3, [])],
   [(1, []), (2, [1]), (3, [1, 2])]⟩

/-- `dagB3` after the failed call `insert_edge 1 3 99`: the pre-existing
edge `1 → 3` (payload `10`) has been destroyed by the rollback, while `1`
is still recorded in the backward set of `3`. -/
def dagB4 : Dag Nat Nat :=
  ⟨[(1, 0), (2, 0), (3, 0)], [(1, [(2, 20)]), (2, [(3, 30)]), (3, [])],
   [(1, []), (2, [1]), (3, [1, 2])]⟩

/-- A single node `1` (payload `0`). -/
def dagN1 : Dag Nat Nat := ⟨[(1, 0)], [(1, [])], [(1, [])]⟩

/-- `dagN1` after `remove_node 1`: the node entry is gone but the forward
and backward indices keep the key `1`. -/
def dagN1r : Dag Nat Nat := ⟨[], [(1, [])], [(1, [])]⟩

theorem reach_dag3 : Reach dag3 :=
  reach_of_eq
    (Reach.insNode (insert_node (insert_node (Dag.new : Dag Nat Nat) 1 0).2 2 0).2 3 0
      (Reach.insNode (insert_node (Dag.new : Dag Nat Nat) 1 0).2 2 0
        (Reach.insNode (Dag.new : Dag Nat Nat) 1 0 Reach.empty)))
    (by decide)

/-- `dag3` after `insert_edge 1 2 20`. -/
def dagA1 : Dag Nat Nat :=
  ⟨[(1, 0), (2, 0), (3, 0)], [(1, [(2, 20)]), (2, []), (3, [])],
   [(1, []), (2, [1]), (3, [])]⟩

/-- `dag3` after `insert_edge 1 3 10`. -/
def dagB1 : Dag Nat Nat :=
  ⟨[(1, 0), (2, 0), (3, 0)], [(1, [(3, 10)]), (2, []), (3, [])],
   [(1, []), (2, []), (3, [1])]⟩

/-- `dagB1` after `insert_edge 1 2 20`. -/
def dagB2 : Dag Nat Nat :=
  ⟨[(1, 0), (2, 0), (3, 0)], [(1, [(2, 20), (3, 10)]), (2, []), (3, [])],
   [(1, []), (2, [1]), (3, [1])]⟩

theorem reach_dagA2 : Reach dagA2 :=
  Reach.insEdge dagA1 2 3 30 (.ok none) dagA2
    (Reach.insEdge dag3 1 2 20 (.ok none) dagA1 reach_dag3 (by decide)) (by decide)

theorem reach_dagB3 : Reach dagB3 :=
  Reach.insEdge dagB2 2 3 30 (.ok none) dagB3
    (Reach.insEdge dagB1 1 2 20 (.ok none) dagB2
      (Reach.insEdge dag3 1 3 10 (.ok none) dagB1 reach_dag3 (by decide)) (by decide))
    (by decide)

theorem reach_dagB4 : Reach dagB4 :=
  Reach.insEdge dagB3 1 3 99 (.error (.hasCycle 1 3 99)) dagB4 reach_dagB3 (by decide)

theorem reach_dagN1 : Reach dagN1 :=
  reach_of_eq (Reach.insNode (Dag.new : Dag Nat Nat) 1 0 Reach.empty) (by decide)

theorem reach_dagN1r : Reach dagN1r :=
  Reach.remNode dagN1 1 (some 0) [] dagN1r reach_dagN1 (by decide)

/-! ## Introduction and elimination forms for the edge relation -/

theorem E_elim {d : Dag α β} {x y : Nat} (h : E d x y) :
    ∃ ch, lookupA d.edges x = some ch ∧ y ∈ keysA ch := by
  unfold E contains_edge at h
  revert h
  cases hl : lookupA d.edges x with
  | none =>
    intro h
    simp at h
  | some ch =>
    intro h
    exact ⟨ch, rfl, (lookupA_isSome_iff ch y).mp h⟩

theorem E_intro {d : Dag α β} {x y : Nat} {ch : List (Nat × β)}
    (hl : lookupA d.edges x = some ch) (hy : y ∈ keysA ch) : E d x y := by
  unfold E contains_edge
  rw [hl]
  show (lookupA ch y).isSome = true
  exact (lookupA_isSome_iff ch y).mpr hy

/-- Every forward edge of `dagA2` goes from a smaller to a larger
identifier, so `dagA2` (and in particular any path inside it) respects
`<`. -/
theorem E_dagA2_lt : ∀ x y, E dagA2 x y → x < y := by
  intro x y h
  obtain ⟨ch, hl, hy⟩ := E_elim h
  have hx := mem_of_lookupA hl
  simp only [dagA2, List.mem_cons, List.not_mem_nil, or_false, Prod.mk.injEq] at hx
  rcases hx with ⟨rfl, rfl⟩ | ⟨rfl, rfl⟩ | ⟨rfl, rfl⟩
  · simp [keysA] at hy
    omega
  · simp [keysA] at hy
    omega
  · simp [keysA] at hy

/-! ## The reachable-state invariant

`Inv` collects what actually survives every completed public operation:
well-formed sorted indices, node keys mirrored into both edge indices,
edge endpoints present in the node map, forward edges mirrored in the
backward index (only this inclusion — the converse is broken by the
rollback bug, see C4), and acyclicity of the forward graph. -/

structure Inv (d : Dag α β) : Prop where
  snodes : SortedK d.nodes
  sedges : SortedK d.edges
  sback : SortedK d.back_edges
  sinner : ∀ i ch, lookupA d.edges i = some ch → SortedK ch
  sback_inner : ∀ i ps, lookupA d.back_edges i = some ps → ps.Pairwise (· < ·)
  nse : ∀ i, contains_node d i = true → (lookupA d.edges i).isSome = true
  nsb : ∀ i, contains_node d i = true → (lookupA d.back_edges i).isSome = true
  endpoints : ∀ f t, contains_edge d f t = true →
    contains_node d f = true ∧ contains_node d t = true
  fsb : ∀ f t, contains_edge d f t = true → f ∈ parents d t
  acyc : ∀ n, ¬ Relation.TransGen (E d) n n

theorem E_new_false (x y : Nat) : ¬ E (Dag.new : Dag α β) x y := by
  intro h
  obtain ⟨ch, hl, _⟩ := E_elim h
  simp [Dag.new, lookupA] at hl

theorem inv_new : Inv (Dag.new : Dag α β) := by
  refine ⟨?_, ?_, ?_, ?_, ?_, ?_, ?_, ?_, ?_, ?_⟩
  · exact List.Pairwise.nil
  · exact List.Pairwise.nil
  · exact List.Pairwise.nil
  · intro i ch h
    simp [Dag.new, lookupA] at h
  · intro i ps h
    simp [Dag.new, lookupA] at h
  · intro i h
    simp [Dag.new, contains_node, lookupA] at h
  · intro i h
    simp [Dag.new, contains_node, lookupA] at h
  · intro f t h
    exact absurd h (E_new_false f t)
  · intro f t h
    exact absurd h (E_new_false f t)
  · intro n h
    rcases Relation.TransGen.head'_iff.mp h with ⟨c, hc, _⟩
    exact E_new_false n c hc

/-! ### Preservation by `insert_node` -/

theorem isSome_eq_none {o : Option α} (h : o.isSome = false) : o = none := by
  cases o
  · rfl
  · cases h

theorem insert_node_edges_of_mem {d : Dag α β} {i : Nat} (a : α)
    (h : (lookupA d.edges i).isSome = true) :
    (insert_node d i a).2.edges = d.edges := by
  simp [insert_node, h]

theorem insert_node_edges_of_not_mem {d : Dag α β} {i : Nat} (a : α)
    (h : (lookupA d.edges i).isSome = false) :
    (insert_node d i a).2.edges = insertA d.edges i [] := by
  simp [insert_node, h]

theorem insert_node_back_of_mem {d : Dag α β} {i : Nat} (a : α)
    (h : (lookupA d.back_edges i).isSome = true) :
    (insert_node d i a).2.back_edges = d.back_edges := by
  simp [insert_node, h]

theorem insert_node_back_of_not_mem {d : Dag α β} {i : Nat} (a : α)
    (h : (lookupA d.back_edges i).isSome = false) :
    (insert_node d i a).2.back_edges = insertA d.back_edges i [] := by
  simp [insert_node, h]

theorem insert_node_E (d : Dag α β) (i : Nat) (a : α) (x y : Nat) :
    E (insert_node d i a).2 x y ↔ E d x y := by
  cases hke : (lookupA d.edges i).isSome with
  | true =>
    unfold E contains_edge
    rw [insert_node_edges_of_mem a hke]
  | false =>
    constructor
    · intro h
      obtain ⟨ch, hl, hy⟩ := E_elim h
      rw [insert_node_edges_of_not_mem a hke] at hl
      by_cases hxi : x = i
      · subst hxi
        rw [lookupA_insertA_self] at hl
        injection hl with hl
        subst hl
        simp [keysA] at hy
      · rw [lookupA_insertA_ne _ _ hxi] at hl
        exact E_intro hl hy
    · intro h
      obtain ⟨ch, hl, hy⟩ := E_elim h
      by_cases hxi : x = i
      · subst hxi
        rw [hl] at hke
        cases hke
      · refine E_intro ?_ hy
        rw [insert_node_edges_of_not_mem a hke, lookupA_insertA_ne _ _ hxi]
        exact hl

theorem insert_node_parents (d : Dag α β) (i : Nat) (a : α) (y : Nat) :
    parents (insert_node d i a).2 y = parents d y := by
  cases hkb : (lookupA d.back_edges i).isSome with
  | true =>
    unfold parents
    rw [insert_node_back_of_mem a hkb]
  | false =>
    unfold parents
    rw [insert_node_back_of_not_mem a hkb]
    by_cases hyi : y = i
    · subst hyi
      rw [lookupA_insertA_self, isSome_eq_none hkb]
      rfl
    · rw [lookupA_insertA_ne _ _ hyi]

theorem insert_node_contains (d : Dag α β) (i : Nat) (a : α) (j : Nat) :
    contains_node (insert_node d i a).2 j = true ↔ j = i ∨ contains_node d j = true := by
  unfold contains_node
  show (lookupA (insertA d.nodes i a) j).isSome = true ↔ _
  by_cases hji : j = i
  · subst hji
    simp [lookupA_insertA_self]
  · rw [lookupA_insertA_ne _ _ hji]
    simp [hji]

theorem inv_insert_node {d : Dag α β} (i : Nat) (a : α) (h : Inv d) :
    Inv (insert_node d i a).2 := by
  have hE := insert_node_E d i a
  have hP := insert_node_parents d i a
  have hC := insert_node_contains d i a
  refine ⟨?_, ?_, ?_, ?_, ?_, ?_, ?_, ?_, ?_, ?_⟩
  · exact sortedK_insertA i a h.snodes
  · cases hke : (lookupA d.edges i).isSome with
    | true => rw [insert_node_edges_of_mem a hke]; exact h.sedges
    | false => rw [insert_node_edges_of_not_mem a hke]; exact sortedK_insertA i [] h.sedges
  · cases hkb : (lookupA d.back_edges i).isSome with
    | true => rw [insert_node_back_of_mem a hkb]; exact h.sback
    | false => rw [insert_node_back_of_not_mem a hkb]; exact sortedK_insertA i [] h.sback
  · intro j ch hl
    cases hke : (lookupA d.edges i).isSome with
    | true =>
      rw [insert_node_edges_of_mem a hke] at hl
      exact h.sinner j ch hl
    | false =>
      rw [insert_node_edges_of_not_mem a hke] at hl
      by_cases hji : j = i
      · subst hji
        rw [lookupA_insertA_self] at hl
        injection hl with hl
        subst hl
        exact List.Pairwise.nil
      · rw [lookupA_insertA_ne _ _ hji] at hl
        exact h.sinner j ch hl
  · intro j ps hl
    cases hkb : (lookupA d.back_edges i).isSome with
    | true =>
      rw [insert_node_back_of_mem a hkb] at hl
      exact h.sback_inner j ps hl
    | false =>
      rw [insert_node_back_of_not_mem a hkb] at hl
      by_cases hji : j = i
      · subst hji
        rw [lookupA_insertA_self] at hl
        injection hl with hl
        subst hl
        exact List.Pairwise.nil
      · rw [lookupA_insertA_ne _ _ hji] at hl
        exact h.sback_inner j ps hl
  · intro j hj
    rcases (hC j).mp hj with rfl | hj'
    · cases hke : (lookupA d.edges j).isSome with
      | true => rw [insert_node_edges_of_mem a hke]; exact hke
      | false => rw [insert_node_edges_of_not_mem a hke]; simp [lookupA_insertA_self]
    · have := h.nse j hj'
      cases hke : (lookupA d.edges i).isSome with
      | true => rw [insert_node_edges_of_mem a hke]; exact this
      | false =>
        rw [insert_node_edges_of_not_mem a hke]
        by_cases hji : j = i
        · subst hji
          simp [lookupA_insertA_self]
        · rw [lookupA_insertA_ne _ _ hji]
          exact this
  · intro j hj
    rcases (hC j).mp hj with rfl | hj'
    · cases hkb : (lookupA d.back_edges j).isSome with
      | true => rw [insert_node_back_of_mem a hkb]; exact hkb
      | false => rw [insert_node_back_of_not_mem a hkb]; simp [lookupA_insertA_self]
    · have := h.nsb j hj'
      cases hkb : (lookupA d.back_edges i).isSome with
      | true => rw [insert_node_back_of_mem a hkb]; exact this
      | false =>
        rw [insert_node_back_of_not_mem a hkb]
        by_cases hji : j = i
        · subst hji
          simp [lookupA_insertA_self]
        · rw [lookupA_insertA_ne _ _ hji]
          exact this
  · intro f t hft
    have := h.endpoints f t ((hE f t).mp hft)
    exact ⟨(hC f).mpr (Or.inr this.1), (hC t).mpr (Or.inr this.2)⟩
  · intro f t hft
    rw [hP t]
    exact h.fsb f t ((hE f t).mp hft)
  · intro n hn
    exact h.acyc n (hn.mono fun a b hab => (hE a b).mp hab)

/-! ### Characterizing the edge relation after forward-index updates -/

theorem isSome_exists {o : Option α} (h : o.isSome = true) : ∃ v, o = some v := by
  cases o
  · cases h
  · exact ⟨_, rfl⟩

theorem mem_keysA_eraseA {l : List (Nat × α)} {k m : Nat}
    (h : m ∈ keysA (eraseA l k)) : m ∈ keysA l :=
  ((eraseA_sublist l k).map Prod.fst).subset h

theorem not_mem_keysA_eraseA {l : List (Nat × α)} (k : Nat)
    (h : (keysA l).Nodup) : k ∉ keysA (eraseA l k) := by
  intro hmem
  have h1 := (lookupA_isSome_iff _ _).mpr hmem
  rw [lookupA_eraseA_self k h] at h1
  cases h1

theorem mem_keysA_eraseA_of {l : List (Nat × α)} {k m : Nat}
    (hm : m ∈ keysA l) (hne : m ≠ k) : m ∈ keysA (eraseA l k) := by
  induction l with
  | nil => simp [keysA] at hm
  | cons p rest ih =>
    obtain ⟨k1, v1⟩ := p
    by_cases h1 : k = k1
    · subst h1
      rw [keysA_cons] at hm
      rcases List.mem_cons.mp hm with rfl | hm
      · exact absurd rfl hne
      · simpa [eraseA] using hm
    · rw [keysA_cons] at hm
      rcases List.mem_cons.mp hm with rfl | hm
      · simp [eraseA, h1, keysA_cons]
      · simp only [eraseA, if_neg h1, keysA_cons]
        exact List.mem_cons_of_mem _ (ih hm)

theorem E_eq_of_edges_eq {d d' : Dag α β} (h : d.edges = d'.edges) (x y : Nat) :
    E d x y ↔ E d' x y := by
  unfold E contains_edge
  rw [h]

/-- Edges of a state whose forward index erased `t` from `f`'s entry. -/
theorem E_forward_erase_iff {d : Dag α β} {f : Nat} {ch : List (Nat × β)}
    (hinv : Inv d) (hch : lookupA d.edges f = some ch) (t : Nat)
    (nds : List (Nat × α)) (eb : List (Nat × List Nat)) (x y : Nat) :
    E (⟨nds, insertA d.edges f (eraseA ch t), eb⟩ : Dag α β) x y ↔
      E d x y ∧ ¬(x = f ∧ y = t) := by
  have hnodup : (keysA ch).Nodup := nodup_of_sortedK (hinv.sinner f ch hch)
  constructor
  · intro h
    obtain ⟨ch', hl', hy⟩ := E_elim h
    by_cases hxf : x = f
    · subst hxf
      rw [show (⟨nds, insertA d.edges x (eraseA ch t), eb⟩ : Dag α β).edges =
          insertA d.edges x (eraseA ch t) from rfl, lookupA_insertA_self] at hl'
      injection hl' with hl'
      subst hl'
      refine ⟨E_intro hch (mem_keysA_eraseA hy), ?_⟩
      rintro ⟨-, rfl⟩
      exact not_mem_keysA_eraseA y hnodup hy
    · rw [show (⟨nds, insertA d.edges f (eraseA ch t), eb⟩ : Dag α β).edges =
          insertA d.edges f (eraseA ch t) from rfl, lookupA_insertA_ne _ _ hxf] at hl'
      exact ⟨E_intro hl' hy, fun hc => hxf hc.1⟩
  · rintro ⟨h, hne⟩
    obtain ⟨ch', hl', hy⟩ := E_elim h
    by_cases hxf : x = f
    · subst hxf
      rw [hch] at hl'
      injection hl' with hl'
      subst hl'
      have hyt : y ≠ t := fun hyt => hne ⟨rfl, hyt⟩
      exact E_intro (d := ⟨nds, insertA d.edges x (eraseA ch t), eb⟩)
        (lookupA_insertA_self _ _ _) (mem_keysA_eraseA_of hy hyt)
    · exact E_intro (d := ⟨nds, insertA d.edges f (eraseA ch t), eb⟩)
        (by rw [show (⟨nds, insertA d.edges f (eraseA ch t), eb⟩ : Dag α β).edges =
            insertA d.edges f (eraseA ch t) from rfl, lookupA_insertA_ne _ _ hxf]; exact hl') hy

/-- Edges of a state whose forward index inserted `t` into `f`'s entry. -/
theorem E_forward_insert_iff {d : Dag α β} {f : Nat} {ch : List (Nat × β)} (t : Nat) (b : β)
    (hch : lookupA d.edges f = some ch)
    (nds : List (Nat × α)) (eb : List (Nat × List Nat)) (x y : Nat) :
    E (⟨nds, insertA d.edges f (insertA ch t b), eb⟩ : Dag α β) x y ↔
      E d x y ∨ (x = f ∧ y = t) := by
  constructor
  · intro h
    obtain ⟨ch', hl', hy⟩ := E_elim h
    by_cases hxf : x = f
    · subst hxf
      rw [show (⟨nds, insertA d.edges x (insertA ch t b), eb⟩ : Dag α β).edges =
          insertA d.edges x (insertA ch t b) from rfl, lookupA_insertA_self] at hl'
      injection hl' with hl'
      subst hl'
      rcases (mem_keysA_insertA ch t y b).mp hy with rfl | hy'
      · exact Or.inr ⟨rfl, rfl⟩
      · exact Or.inl (E_intro hch hy')
    · rw [show (⟨nds, insertA d.edges f (insertA ch t b), eb⟩ : Dag α β).edges =
          insertA d.edges f (insertA ch t b) from rfl, lookupA_insertA_ne _ _ hxf] at hl'
      exact Or.inl (E_intro hl' hy)
  · intro h
    rcases h with h | ⟨rfl, rfl⟩
    · obtain ⟨ch', hl', hy⟩ := E_elim h
      by_cases hxf : x = f
      · subst hxf
        rw [hch] at hl'
        injection hl' with hl'
        subst hl'
        exact E_intro (d := ⟨nds, insertA d.edges x (insertA ch t b), eb⟩)
          (lookupA_insertA_self _ _ _) ((mem_keysA_insertA ch t y b).mpr (Or.inr hy))
      · exact E_intro (d := ⟨nds, insertA d.edges f (insertA ch t b), eb⟩)
          (by rw [show (⟨nds, insertA d.edges f (insertA ch t b), eb⟩ : Dag α β).edges =
              insertA d.edges f (insertA ch t b) from rfl, lookupA_insertA_ne _ _ hxf]; exact hl') hy
    · exact E_intro (d := ⟨nds, insertA d.edges x (insertA ch y b), eb⟩)
        (lookupA_insertA_self _ _ _) ((mem_keysA_insertA ch y y b).mpr (Or.inl rfl))

/-- A non-trivial path in `r ∪ {(f, t)}` either stays in `r` or passes
through the new edge, in which case its source reaches `f` and `t` reaches
its target. -/
theorem transGen_union_decompose {r : Nat → Nat → Prop} {f t : Nat} {a b : Nat}
    (h : Relation.TransGen (fun x y => r x y ∨ (x = f ∧ y = t)) a b) :
    Relation.TransGen r a b ∨
      (Relation.ReflTransGen (fun x y => r x y ∨ (x = f ∧ y = t)) a f ∧
       Relation.ReflTransGen (fun x y => r x y ∨ (x = f ∧ y = t)) t b) := by
  induction h with
  | single h1 =>
    rcases h1 with h1 | ⟨rfl, rfl⟩
    · exact Or.inl (Relation.TransGen.single h1)
    · exact Or.inr ⟨Relation.ReflTransGen.refl, Relation.ReflTransGen.refl⟩
  | tail hab hbc ih =>
    rcases hbc with hbc | ⟨rfl, rfl⟩
    · rcases ih with ih | ⟨ih1, ih2⟩
      · exact Or.inl (ih.tail hbc)
      · exact Or.inr ⟨ih1, ih2.tail (Or.inl hbc)⟩
    · rcases ih with ih | ⟨ih1, _⟩
      · exact Or.inr ⟨(ih.mono fun x y hxy => Or.inl hxy).to_reflTransGen,
          Relation.ReflTransGen.refl⟩
      · exact Or.inr ⟨ih1, Relation.ReflTransGen.refl⟩

/-! ### Invariance of the three mutated state shapes -/

/-- The state produced by a successful `remove_edge f t`. -/
theorem inv_erase_state {d : Dag α β} {f t : Nat} {ch : List (Nat × β)} {ps : List Nat}
    (hinv : Inv d) (hch : lookupA d.edges f = some ch)
    (hps : lookupA d.back_edges t = some ps) :
    Inv (⟨d.nodes, insertA d.edges f (eraseA ch t),
      insertA d.back_edges t (eraseS ps f)⟩ : Dag α β) := by
  have hE := E_forward_erase_iff hinv hch t d.nodes (insertA d.back_edges t (eraseS ps f))
  refine ⟨hinv.snodes, sortedK_insertA f _ hinv.sedges, sortedK_insertA t _ hinv.sback,
    ?_, ?_, ?_, ?_, ?_, ?_, ?_⟩
  · intro j cj hl
    by_cases hjf : j = f
    · subst hjf
      rw [show (⟨d.nodes, insertA d.edges j (eraseA ch t), insertA d.back_edges t (eraseS ps j)⟩ :
          Dag α β).edges = insertA d.edges j (eraseA ch t) from rfl, lookupA_insertA_self] at hl
      injection hl with hl
      subst hl
      exact sortedK_eraseA t (hinv.sinner j ch hch)
    · rw [show (⟨d.nodes, insertA d.edges f (eraseA ch t), insertA d.back_edges t (eraseS ps f)⟩ :
          Dag α β).edges = insertA d.edges f (eraseA ch t) from rfl,
        lookupA_insertA_ne _ _ hjf] at hl
      exact hinv.sinner j cj hl
  · intro j pj hl
    by_cases hjt : j = t
    · subst hjt
      rw [show (⟨d.nodes, insertA d.edges f (eraseA ch j), insertA d.back_edges j (eraseS ps f)⟩ :
          Dag α β).back_edges = insertA d.back_edges j (eraseS ps f) from rfl,
        lookupA_insertA_self] at hl
      injection hl with hl
      subst hl
      exact sortedS_eraseS f (hinv.sback_inner j ps hps)
    · rw [show (⟨d.nodes, insertA d.edges f (eraseA ch t), insertA d.back_edges t (eraseS ps f)⟩ :
          Dag α β).back_edges = insertA d.back_edges t (eraseS ps f) from rfl,
        lookupA_insertA_ne _ _ hjt] at hl
      exact hinv.sback_inner j pj hl
  · intro j hj
    have h1 := hinv.nse j hj
    by_cases hjf : j = f
    · subst hjf
      show (lookupA (insertA d.edges j (eraseA ch t)) j).isSome = true
      rw [lookupA_insertA_self]
      rfl
    · show (lookupA (insertA d.edges f (eraseA ch t)) j).isSome = true
      rw [lookupA_insertA_ne _ _ hjf]
      exact h1
  · intro j hj
    have h1 := hinv.nsb j hj
    by_cases hjt : j = t
    · subst hjt
      show (lookupA (insertA d.back_edges j (eraseS ps f)) j).isSome = true
      rw [lookupA_insertA_self]
      rfl
    · show (lookupA (insertA d.back_edges t (eraseS ps f)) j).isSome = true
      rw [lookupA_insertA_ne _ _ hjt]
      exact h1
  · intro x y hxy
    exact hinv.endpoints x y ((hE x y).mp hxy).1
  · intro x y hxy
    obtain ⟨hd, hne⟩ := (hE x y).mp hxy
    have hmem := hinv.fsb x y hd
    by_cases hyt : y = t
    · subst hyt
      have hxf : x ≠ f := fun hxf => hne ⟨hxf, rfl⟩
      show x ∈ (lookupA (insertA d.back_edges y (eraseS ps f)) y).getD []
      rw [lookupA_insertA_self]
      unfold parents at hmem
      rw [hps] at hmem
      exact mem_eraseS_of hmem hxf
    · show x ∈ (lookupA (insertA d.back_edges t (eraseS ps f)) y).getD []
      rw [lookupA_insertA_ne _ _ hyt]
      exact hmem
  · intro n hn
    exact hinv.acyc n (hn.mono fun a b hab => ((hE a b).mp hab).1)

/-- The state produced by a rolled-back `insert_edge f t` (cycle reported):
only the forward entry of `f` changes, to `eraseA ch t`. -/
theorem inv_rollback_state {d : Dag α β} {f t : Nat} {ch : List (Nat × β)}
    (hinv : Inv d) (hch : lookupA d.edges f = some ch) :
    Inv (⟨d.nodes, insertA d.edges f (eraseA ch t), d.back_edges⟩ : Dag α β) := by
  have hE := E_forward_erase_iff hinv hch t d.nodes d.back_edges
  refine ⟨hinv.snodes, sortedK_insertA f _ hinv.sedges, hinv.sback,
    ?_, hinv.sback_inner, ?_, hinv.nsb, ?_, ?_, ?_⟩
  · intro j cj hl
    by_cases hjf : j = f
    · subst hjf
      rw [show (⟨d.nodes, insertA d.edges j (eraseA ch t), d.back_edges⟩ :
          Dag α β).edges = insertA d.edges j (eraseA ch t) from rfl, lookupA_insertA_self] at hl
      injection hl with hl
      subst hl
      exact sortedK_eraseA t (hinv.sinner j ch hch)
    · rw [show (⟨d.nodes, insertA d.edges f (eraseA ch t), d.back_edges⟩ :
          Dag α β).edges = insertA d.edges f (eraseA ch t) from rfl,
        lookupA_insertA_ne _ _ hjf] at hl
      exact hinv.sinner j cj hl
  · intro j hj
    have h1 := hinv.nse j hj
    by_cases hjf : j = f
    · subst hjf
      show (lookupA (insertA d.edges j (eraseA ch t)) j).isSome = true
      rw [lookupA_insertA_self]
      rfl
    · show (lookupA (insertA d.edges f (eraseA ch t)) j).isSome = true
      rw [lookupA_insertA_ne _ _ hjf]
      exact h1
  · intro x y hxy
    exact hinv.endpoints x y ((hE x y).mp hxy).1
  · intro x y hxy
    exact hinv.fsb x y ((hE x y).mp hxy).1
  · intro n hn
    exact hinv.acyc n (hn.mono fun a b hab => ((hE a b).mp hab).1)

/-- The state produced by a committed `insert_edge f t b` whose DFS check
returned `false`. -/
theorem inv_commit_state {d : Dag α β} {f t : Nat} {ch : List (Nat × β)} {ps : List Nat}
    (b : β) (hinv : Inv d) (hf : contains_node d f = true) (ht : contains_node d t = true)
    (hch : lookupA d.edges f = some ch) (hps : lookupA d.back_edges t = some ps)
    (hnc : ¬ Relation.TransGen
      (E (⟨d.nodes, insertA d.edges f (insertA ch t b),
        insertA d.back_edges t (insertS ps f)⟩ : Dag α β)) f f) :
    Inv (⟨d.nodes, insertA d.edges f (insertA ch t b),
      insertA d.back_edges t (insertS ps f)⟩ : Dag α β) := by
  have hE := E_forward_insert_iff t b hch d.nodes (insertA d.back_edges t (insertS ps f))
  refine ⟨hinv.snodes, sortedK_insertA f _ hinv.sedges, sortedK_insertA t _ hinv.sback,
    ?_, ?_, ?_, ?_, ?_, ?_, ?_⟩
  · intro j cj hl
    by_cases hjf : j = f
    · subst hjf
      rw [show (⟨d.nodes, insertA d.edges j (insertA ch t b),
          insertA d.back_edges t (insertS ps j)⟩ : Dag α β).edges =
          insertA d.edges j (insertA ch t b) from rfl, lookupA_insertA_self] at hl
      injection hl with hl
      subst hl
      exact sortedK_insertA t b (hinv.sinner j ch hch)
    · rw [show (⟨d.nodes, insertA d.edges f (insertA ch t b),
          insertA d.back_edges t (insertS ps f)⟩ : Dag α β).edges =
          insertA d.edges f (insertA ch t b) from rfl, lookupA_insertA_ne _ _ hjf] at hl
      exact hinv.sinner j cj hl
  · intro j pj hl
    by_cases hjt : j = t
    · subst hjt
      rw [show (⟨d.nodes, insertA d.edges f (insertA ch j b),
          insertA d.back_edges j (insertS ps f)⟩ : Dag α β).back_edges =
          insertA d.back_edges j (insertS ps f) from rfl, lookupA_insertA_self] at hl
      injection hl with hl
      subst hl
      exact sortedS_insertS f (hinv.sback_inner j ps hps)
    · rw [show (⟨d.nodes, insertA d.edges f (insertA ch t b),
          insertA d.back_edges t (insertS ps f)⟩ : Dag α β).back_edges =
          insertA d.back_edges t (insertS ps f) from rfl, lookupA_insertA_ne _ _ hjt] at hl
      exact hinv.sback_inner j pj hl
  · intro j hj
    have h1 := hinv.nse j hj
    by_cases hjf : j = f
    · subst hjf
      show (lookupA (insertA d.edges j (insertA ch t b)) j).isSome = true
      rw [lookupA_insertA_self]
      rfl
    · show (lookupA (insertA d.edges f (insertA ch t b)) j).isSome = true
      rw [lookupA_insertA_ne _ _ hjf]
      exact h1
  · intro j hj
    have h1 := hinv.nsb j hj
    by_cases hjt : j = t
    · subst hjt
      show (lookupA (insertA d.back_edges j (insertS ps f)) j).isSome = true
      rw [lookupA_insertA_self]
      rfl
    · show (lookupA (insertA d.back_edges t (insertS ps f)) j).isSome = true
      rw [lookupA_insertA_ne _ _ hjt]
      exact h1
  · intro x y hxy
    rcases (hE x y).mp hxy with hd | ⟨rfl, rfl⟩
    · exact hinv.endpoints x y hd
    · exact ⟨hf, ht⟩
  · intro x y hxy
    by_cases hyt : y = t
    · subst hyt
      show x ∈ (lookupA (insertA d.back_edges y (insertS ps f)) y).getD []
      rw [lookupA_insertA_self]
      show x ∈ insertS ps f
      rcases (hE x y).mp hxy with hd | ⟨rfl, -⟩
      · have hmem := hinv.fsb x y hd
        unfold parents at hmem
        rw [hps] at hmem
        exact (mem_insertS ps f x).mpr (Or.inr hmem)
      · exact (mem_insertS ps x x).mpr (Or.inl rfl)
    · show x ∈ (lookupA (insertA d.back_edges t (insertS ps f)) y).getD []
      rw [lookupA_insertA_ne _ _ hyt]
      rcases (hE x y).mp hxy with hd | ⟨-, rfl⟩
      · exact hinv.fsb x y hd
      · exact absurd rfl hyt
  · intro n hn
    have hn' : Relation.TransGen (fun x y => E d x y ∨ (x = f ∧ y = t)) n n :=
      hn.mono fun a b hab => (hE a b).mp hab
    rcases transGen_union_decompose hn' with h1 | ⟨h1, h2⟩
    · exact hinv.acyc n h1
    · have htf := h2.trans h1
      have hff : Relation.TransGen (fun x y => E d x y ∨ (x = f ∧ y = t)) f f :=
        Relation.TransGen.head' (Or.inr ⟨rfl, rfl⟩) htf
      exact hnc (hff.mono fun a b hab => (hE a b).mpr hab)

/-! ### Equation lemmas for `remove_edge` and `insert_edge` -/

theorem remove_edge_err_f {d : Dag α β} {f : Nat} (t : Nat)
    (hf : contains_node d f = false) :
    remove_edge d f t = some (.error (.nodeNotFound f), d) := by
  unfold remove_edge
  rw [if_pos hf]

theorem remove_edge_err_t {d : Dag α β} {f t : Nat} (hf : contains_node d f = true)
    (ht : contains_node d t = false) :
    remove_edge d f t = some (.error (.nodeNotFound t), d) := by
  unfold remove_edge
  rw [if_neg (by simp [hf]), if_pos ht]

theorem remove_edge_eq {d : Dag α β} {f t : Nat} {ch : List (Nat × β)} {ps : List Nat}
    (hf : contains_node d f = true) (ht : contains_node d t = true)
    (hch : lookupA d.edges f = some ch) (hps : lookupA d.back_edges t = some ps) :
    remove_edge d f t = some (.ok (lookupA ch t),
      ⟨d.nodes, insertA d.edges f (eraseA ch t),
        insertA d.back_edges t (eraseS ps f)⟩) := by
  unfold remove_edge
  rw [if_neg (by simp [hf]), if_neg (by simp [ht])]
  simp only [hch, hps]

theorem insert_edge_err_f {d : Dag α β} {f : Nat} (t : Nat) (b : β)
    (hf : contains_node d f = false) :
    insert_edge d f t b = some (.error (.nodeNotFound f), d) := by
  unfold insert_edge
  rw [if_pos hf]

theorem insert_edge_err_t {d : Dag α β} {f t : Nat} (b : β)
    (hf : contains_node d f = true) (ht : contains_node d t = false) :
    insert_edge d f t b = some (.error (.nodeNotFound t), d) := by
  unfold insert_edge
  rw [if_neg (by simp [hf]), if_pos ht]

theorem insert_edge_eq_cycle {d : Dag α β} {f t : Nat} {ch : List (Nat × β)} (b : β)
    (hf : contains_node d f = true) (ht : contains_node d t = true)
    (hch : lookupA d.edges f = some ch)
    (hcyc : in_cycle (⟨d.nodes, insertA d.edges f (insertA ch t b),
      d.back_edges⟩ : Dag α β) f = true) :
    insert_edge d f t b = some (.error (.hasCycle f t b),
      ⟨d.nodes, insertA d.edges f (eraseA (insertA ch t b) t), d.back_edges⟩) := by
  unfold insert_edge
  rw [if_neg (by simp [hf]), if_neg (by simp [ht])]
  simp only [hch]
  rw [if_pos hcyc]
  simp only [lookupA_insertA_self, insertA_insertA]

theorem insert_edge_eq_ok {d : Dag α β} {f t : Nat} {ch : List (Nat × β)} {ps : List Nat}
    (b : β) (hf : contains_node d f = true) (ht : contains_node d t = true)
    (hch : lookupA d.edges f = some ch) (hps : lookupA d.back_edges t = some ps)
    (hcyc : in_cycle (⟨d.nodes, insertA d.edges f (insertA ch t b),
      d.back_edges⟩ : Dag α β) f = false) :
    insert_edge d f t b = some (.ok (lookupA ch t),
      ⟨d.nodes, insertA d.edges f (insertA ch t b),
        insertA d.back_edges t (insertS ps f)⟩) := by
  unfold insert_edge
  rw [if_neg (by simp [hf]), if_neg (by simp [ht])]
  simp only [hch]
  rw [if_neg (by simp [hcyc]), hps]

theorem snd_eq_of_pair_eq {γ δ : Type} {a r : γ} {b d' : δ}
    (h : (a, b) = (r, d')) : b = d' := by
  cases h
  rfl

theorem bool_eq_false_of_not_true {x : Bool} (h : ¬ x = true) : x = false := by
  cases x
  · rfl
  · exact absurd rfl h

theorem inv_remove_edge {d : Dag α β} {f t : Nat} {r : Except (DagError β) (Option β)}
    {d' : Dag α β} (hinv : Inv d) (h : remove_edge d f t = some (r, d')) : Inv d' := by
  by_cases hf : contains_node d f = true
  · by_cases ht : contains_node d t = true
    · obtain ⟨ch, hch⟩ := isSome_exists (hinv.nse f hf)
      obtain ⟨ps, hps⟩ := isSome_exists (hinv.nsb t ht)
      rw [remove_edge_eq hf ht hch hps] at h
      injection h with h
      exact (snd_eq_of_pair_eq h) ▸ inv_erase_state hinv hch hps
    · rw [remove_edge_err_t hf (bool_eq_false_of_not_true ht)] at h
      injection h with h
      exact (snd_eq_of_pair_eq h) ▸ hinv
  · rw [remove_edge_err_f t (bool_eq_false_of_not_true hf)] at h
    injection h with h
    exact (snd_eq_of_pair_eq h) ▸ hinv

theorem inv_insert_edge {d : Dag α β} {f t : Nat} {b : β}
    {r : Except (DagError β) (Option β)} {d' : Dag α β}
    (hinv : Inv d) (h : insert_edge d f t b = some (r, d')) : Inv d' := by
  by_cases hf : contains_node d f = true
  · by_cases ht : contains_node d t = true
    · obtain ⟨ch, hch⟩ := isSome_exists (hinv.nse f hf)
      cases hcyc : in_cycle (⟨d.nodes, insertA d.edges f (insertA ch t b),
          d.back_edges⟩ : Dag α β) f with
      | true =>
        rw [insert_edge_eq_cycle b hf ht hch hcyc] at h
        injection h with h
        have hroll : Inv (⟨d.nodes, insertA d.edges f (eraseA (insertA ch t b) t),
            d.back_edges⟩ : Dag α β) := by
          rw [eraseA_insertA t b (hinv.sinner f ch hch)]
          exact inv_rollback_state hinv hch
        exact (snd_eq_of_pair_eq h) ▸ hroll
      | false =>
        obtain ⟨ps, hps⟩ := isSome_exists (hinv.nsb t ht)
        rw [insert_edge_eq_ok b hf ht hch hps hcyc] at h
        injection h with h
        have hnc : ¬ Relation.TransGen
            (E (⟨d.nodes, insertA d.edges f (insertA ch t b),
              insertA d.back_edges t (insertS ps f)⟩ : Dag α β)) f f := by
          have h1 := in_cycle_false_no_cycle _ f hcyc
          intro hc
          exact h1 (hc.mono fun a c hac =>
            (E_eq_of_edges_eq (d := ⟨d.nodes, insertA d.edges f (insertA ch t b),
              d.back_edges⟩) rfl a c).mpr hac)
        exact (snd_eq_of_pair_eq h) ▸ inv_commit_state b hinv hf ht hch hps hnc
    · rw [insert_edge_err_t b hf (bool_eq_false_of_not_true ht)] at h
      injection h with h
      exact (snd_eq_of_pair_eq h) ▸ hinv
  · rw [insert_edge_err_f t b (bool_eq_false_of_not_true hf)] at h
    injection h with h
    exact (snd_eq_of_pair_eq h) ▸ hinv

/-! ### The edge-removal loops of `remove_node` -/

theorem remove_edge_step_props {d : Dag α β} {f t : Nat} {r : Except (DagError β) (Option β)}
    {d1 : Dag α β} (hinv : Inv d) (h : remove_edge d f t = some (r, d1)) :
    d1.nodes = d.nodes ∧ (∀ x y, E d1 x y → E d x y) ∧
    (∀ j, (lookupA d1.edges j).isSome = (lookupA d.edges j).isSome) ∧
    (∀ j, (lookupA d1.back_edges j).isSome = (lookupA d.back_edges j).isSome) := by
  by_cases hf : contains_node d f = true
  · by_cases ht : contains_node d t = true
    · obtain ⟨ch, hch⟩ := isSome_exists (hinv.nse f hf)
      obtain ⟨ps, hps⟩ := isSome_exists (hinv.nsb t ht)
      rw [remove_edge_eq hf ht hch hps] at h
      injection h with h
      obtain rfl := snd_eq_of_pair_eq h
      refine ⟨rfl, ?_, ?_, ?_⟩
      · intro x y hxy
        exact ((E_forward_erase_iff hinv hch t d.nodes _ x y).mp hxy).1
      · intro j
        by_cases hjf : j = f
        · subst hjf
          show (lookupA (insertA d.edges j (eraseA ch t)) j).isSome = _
          rw [lookupA_insertA_self, hch]
          rfl
        · show (lookupA (insertA d.edges f (eraseA ch t)) j).isSome = _
          rw [lookupA_insertA_ne _ _ hjf]
      · intro j
        by_cases hjt : j = t
        · subst hjt
          show (lookupA (insertA d.back_edges j (eraseS ps f)) j).isSome = _
          rw [lookupA_insertA_self, hps]
          rfl
        · show (lookupA (insertA d.back_edges t (eraseS ps f)) j).isSome = _
          rw [lookupA_insertA_ne _ _ hjt]
    · rw [remove_edge_err_t hf (bool_eq_false_of_not_true ht)] at h
      injection h with h
      obtain rfl := snd_eq_of_pair_eq h
      exact ⟨rfl, fun x y hxy => hxy, fun j => rfl, fun j => rfl⟩
  · rw [remove_edge_err_f t (bool_eq_false_of_not_true hf)] at h
    injection h with h
    obtain rfl := snd_eq_of_pair_eq h
    exact ⟨rfl, fun x y hxy => hxy, fun j => rfl, fun j => rfl⟩

/-- Generic facts about a completed edge-removal loop: the invariant is
preserved, nodes are untouched, edges only disappear, and the key sets of
both edge indices are unchanged. -/
theorem inv_remove_edges_loop :
    ∀ (prs : List (Nat × Nat)) (d : Dag α β) (bs : List β) (d' : Dag α β),
      Inv d → remove_edges_loop d prs = some (bs, d') →
      Inv d' ∧ d'.nodes = d.nodes ∧
      (∀ x y, E d' x y → E d x y) ∧
      (∀ j, (lookupA d'.edges j).isSome = (lookupA d.edges j).isSome) ∧
      (∀ j, (lookupA d'.back_edges j).isSome = (lookupA d.back_edges j).isSome) := by
  intro prs
  induction prs with
  | nil =>
    intro d bs d' hinv h
    unfold remove_edges_loop at h
    injection h with h
    obtain rfl := snd_eq_of_pair_eq h
    exact ⟨hinv, rfl, fun x y hxy => hxy, fun j => rfl, fun j => rfl⟩
  | cons pr rest ih =>
    obtain ⟨f, t⟩ := pr
    intro d bs d' hinv h
    rcases hre : remove_edge d f t with _ | ⟨r1, d1⟩
    · simp only [remove_edges_loop, hre] at h
      cases h
    · rcases r1 with e | ob
      · simp only [remove_edges_loop, hre] at h
        cases h
      · rcases ob with _ | b
        · simp only [remove_edges_loop, hre] at h
          cases h
        · simp only [remove_edges_loop, hre] at h
          rcases hloop : remove_edges_loop d1 rest with _ | ⟨bs2, d2⟩
          · rw [hloop] at h
            cases h
          · rw [hloop] at h
            injection h with h
            obtain rfl := snd_eq_of_pair_eq h
            have hstep := remove_edge_step_props hinv hre
            have hinv1 := inv_remove_edge hinv hre
            obtain ⟨hinv2, hn2, hE2, hke2, hkb2⟩ := ih d1 bs2 d2 hinv1 hloop
            exact ⟨hinv2, hn2.trans hstep.1,
              fun x y hxy => hstep.2.1 x y (hE2 x y hxy),
              fun j => (hke2 j).trans (hstep.2.2.1 j),
              fun j => (hkb2 j).trans (hstep.2.2.2 j)⟩

/-- The children loop of `remove_node i`: removing, in order, every key of
`i`'s forward entry empties that entry and leaves `i`'s backward entry
alone. -/
theorem remove_edges_loop_children (i : Nat) :
    ∀ (ch : List (Nat × β)) (d : Dag α β) (bs : List β) (d' : Dag α β),
      Inv d → lookupA d.edges i = some ch →
      remove_edges_loop d ((keysA ch).map (fun c => (i, c))) = some (bs, d') →
      lookupA d'.edges i = some ([] : List (Nat × β)) ∧
      lookupA d'.back_edges i = lookupA d.back_edges i ∧
      d'.nodes = d.nodes ∧ Inv d' := by
  intro ch
  induction ch with
  | nil =>
    intro d bs d' hinv hch h
    unfold remove_edges_loop at h
    injection h with h
    obtain rfl := snd_eq_of_pair_eq h
    exact ⟨hch, rfl, rfl, hinv⟩
  | cons p ch'' ih =>
    obtain ⟨c, v⟩ := p
    intro d bs d' hinv hch h
    have hedge : E d i c := E_intro hch (by rw [keysA_cons]; exact List.mem_cons_self _ _)
    have hci : c ≠ i := by
      rintro rfl
      exact hinv.acyc c (Relation.TransGen.single hedge)
    have hf : contains_node d i = true := (hinv.endpoints i c hedge).1
    have ht : contains_node d c = true := (hinv.endpoints i c hedge).2
    obtain ⟨ps, hps⟩ := isSome_exists (hinv.nsb c ht)
    have hre := remove_edge_eq hf ht hch hps
    have hlv : lookupA ((c, v) :: ch'') c = some v := by simp [lookupA]
    have her : eraseA ((c, v) :: ch'') c = ch'' := by simp [eraseA]
    rw [hlv, her] at hre
    simp only [keysA_cons, List.map_cons, remove_edges_loop, hre] at h
    rcases hloop : remove_edges_loop
        (⟨d.nodes, insertA d.edges i ch'', insertA d.back_edges c (eraseS ps i)⟩ : Dag α β)
        ((ch''.map Prod.fst).map (fun c => (i, c))) with _ | ⟨bs2, d2⟩
    · rw [hloop] at h
      cases h
    · rw [hloop] at h
      injection h with h
      obtain rfl := snd_eq_of_pair_eq h
      have hinv1 := inv_remove_edge hinv hre
      have hch1 : lookupA (⟨d.nodes, insertA d.edges i ch'',
          insertA d.back_edges c (eraseS ps i)⟩ : Dag α β).edges i = some ch'' :=
        lookupA_insertA_self _ _ _
      obtain ⟨he2, hb2, hn2, hinv2⟩ := ih _ bs2 d2 hinv1 hch1 hloop
      refine ⟨he2, ?_, hn2, hinv2⟩
      rw [hb2]
      show lookupA (insertA d.back_edges c (eraseS ps i)) i = lookupA d.back_edges i
      exact lookupA_insertA_ne _ _ (fun hic => hci hic.symm)

/-- The parents loop of `remove_node i`: if the processed list covers every
current in-edge source of `i`, a completed loop removes every in-edge of
`i` and leaves `i`'s forward entry alone. -/
theorem remove_edges_loop_parents (i : Nat) :
    ∀ (pl : List Nat) (d : Dag α β) (bs : List β) (d' : Dag α β),
      Inv d → (∀ x, E d x i → x ∈ pl) →
      remove_edges_loop d (pl.map (fun p => (p, i))) = some (bs, d') →
      (∀ x, ¬ E d' x i) ∧ lookupA d'.edges i = lookupA d.edges i ∧
      d'.nodes = d.nodes ∧ Inv d' := by
  intro pl
  induction pl with
  | nil =>
    intro d bs d' hinv hcov h
    unfold remove_edges_loop at h
    injection h with h
    obtain rfl := snd_eq_of_pair_eq h
    exact ⟨fun x hx => by simpa using hcov x hx, rfl, rfl, hinv⟩
  | cons p pl' ih =>
    intro d bs d' hinv hcov h
    rcases hre : remove_edge d p i with _ | ⟨r1, d1⟩
    · simp only [List.map_cons, remove_edges_loop, hre] at h
      cases h
    · rcases r1 with e | ob
      · simp only [List.map_cons, remove_edges_loop, hre] at h
        cases h
      · rcases ob with _ | b
        · simp only [List.map_cons, remove_edges_loop, hre] at h
          cases h
        · have hp : contains_node d p = true := by
            by_contra hp
            rw [remove_edge_err_f i (bool_eq_false_of_not_true hp)] at hre
            injection hre with hre
            simp at hre
          have hi : contains_node d i = true := by
            by_contra hi
            rw [remove_edge_err_t hp (bool_eq_false_of_not_true hi)] at hre
            injection hre with hre
            simp at hre
          obtain ⟨ch, hch⟩ := isSome_exists (hinv.nse p hp)
          obtain ⟨ps, hps⟩ := isSome_exists (hinv.nsb i hi)
          have hre' := remove_edge_eq hp hi hch hps
          have hcmp := hre.symm.trans hre'
          injection hcmp with hcmp
          have hd1 : d1 = ⟨d.nodes, insertA d.edges p (eraseA ch i),
              insertA d.back_edges i (eraseS ps p)⟩ := snd_eq_of_pair_eq hcmp
          have hlv : lookupA ch i = some b := by
            have := congrArg Prod.fst hcmp
            simp only at this
            injection this with this
            exact this.symm
          have hedge : E d p i := E_intro hch ((lookupA_isSome_iff ch i).mp (by rw [hlv]; rfl))
          have hpi : p ≠ i := by
            rintro rfl
            exact hinv.acyc p (Relation.TransGen.single hedge)
          simp only [List.map_cons, remove_edges_loop, hre] at h
          rcases hloop : remove_edges_loop d1 (pl'.map (fun p => (p, i))) with _ | ⟨bs2, d2⟩
          · rw [hloop] at h
            cases h
          · rw [hloop] at h
            injection h with h
            obtain rfl := snd_eq_of_pair_eq h
            have hinv1 := inv_remove_edge hinv hre
            have hcov1 : ∀ x, E d1 x i → x ∈ pl' := by
              intro x hx
              rw [hd1] at hx
              obtain ⟨hxd, hne⟩ := (E_forward_erase_iff hinv hch i d.nodes _ x i).mp hx
              have hxp : x ≠ p := fun hxp => hne ⟨hxp, rfl⟩
              rcases List.mem_cons.mp (hcov x hxd) with rfl | hx'
              · exact absurd rfl hxp
              · exact hx'
            obtain ⟨hE2, he2, hn2, hinv2⟩ := ih d1 bs2 d2 hinv1 hcov1 hloop
            refine ⟨hE2, ?_, ?_, hinv2⟩
            · rw [he2, hd1]
              show lookupA (insertA d.edges p (eraseA ch i)) i = lookupA d.edges i
              exact lookupA_insertA_ne _ _ (fun hip => hpi hip.symm)
            · rw [hn2, hd1]

/-- A completed `remove_node` preserves the invariant; afterwards the node
is gone from the node map, it has no in- or out-edges left, and the key
sets of both edge indices are untouched. -/
theorem remove_node_props {d : Dag α β} {i : Nat} {ra : Option α} {bs : List β}
    {d' : Dag α β} (hinv : Inv d) (h : remove_node d i = some (ra, bs, d')) :
    Inv d' ∧ contains_node d' i = false ∧
    (∀ x, ¬ E d' x i) ∧ (∀ y, ¬ E d' i y) ∧
    (∀ j, (lookupA d'.edges j).isSome = (lookupA d.edges j).isSome) ∧
    (∀ j, (lookupA d'.back_edges j).isSome = (lookupA d.back_edges j).isSome) := by
  by_cases hc : contains_node d i = true
  · have hc' : ¬ (contains_node d i = false) := by simp [hc]
    unfold remove_node at h
    rw [if_neg hc'] at h
    obtain ⟨ch, hch⟩ := isSome_exists (hinv.nse i hc)
    have hchl : children d i = ch := by
      unfold children
      rw [hch]
      rfl
    simp only [hchl] at h
    rcases hloop1 : remove_edges_loop d ((ch.map Prod.fst).map (fun c => (i, c)))
        with _ | ⟨bs1, d1⟩
    · simp only [hloop1] at h
      cases h
    · simp only [hloop1] at h
      obtain ⟨he1, hb1, hn1, hinv1⟩ :=
        remove_edges_loop_children i ch d bs1 d1 hinv hch hloop1
      obtain ⟨-, -, -, hke1, hkb1⟩ := inv_remove_edges_loop _ d bs1 d1 hinv hloop1
      rcases hloop2 : remove_edges_loop d1 ((parents d1 i).map (fun p => (p, i)))
          with _ | ⟨bs2, d2⟩
      · simp only [hloop2] at h
        cases h
      · simp only [hloop2] at h
        injection h with h
        have hrest := snd_eq_of_pair_eq h
        obtain rfl := snd_eq_of_pair_eq hrest
        obtain ⟨hE2, he2, hn2, hinv2⟩ :=
          remove_edges_loop_parents i (parents d1 i) d1 bs2 d2 hinv1
            (fun x hx => hinv1.fsb x i hx) hloop2
        obtain ⟨-, -, -, hke2, hkb2⟩ := inv_remove_edges_loop _ d1 bs2 d2 hinv1 hloop2
        have hnodup2 : (keysA d2.nodes).Nodup := nodup_of_sortedK hinv2.snodes
        have hei2 : lookupA d2.edges i = some ([] : List (Nat × β)) := he2.trans he1
        have hEi : ∀ y, ¬ E d2 i y := by
          intro y hy
          obtain ⟨ch', hl', hy'⟩ := E_elim hy
          rw [hei2] at hl'
          injection hl' with hl'
          subst hl'
          simp [keysA] at hy'
        have hcd' : contains_node ({ d2 with nodes := eraseA d2.nodes i } : Dag α β) i = false := by
          show (lookupA (eraseA d2.nodes i) i).isSome = false
          rw [lookupA_eraseA_self i hnodup2]
          rfl
        refine ⟨?_, hcd', hE2, hEi, fun j => (hke2 j).trans (hke1 j),
          fun j => (hkb2 j).trans (hkb1 j)⟩
        refine ⟨sortedK_eraseA i hinv2.snodes, hinv2.sedges, hinv2.sback,
          hinv2.sinner, hinv2.sback_inner, ?_, ?_, ?_, hinv2.fsb, hinv2.acyc⟩
        · intro j hj
          by_cases hji : j = i
          · subst hji
            rw [hcd'] at hj
            cases hj
          · have hj2 : contains_node d2 j = true := by
              show (lookupA d2.nodes j).isSome = true
              rw [← lookupA_eraseA_ne d2.nodes hji]
              exact hj
            exact hinv2.nse j hj2
        · intro j hj
          by_cases hji : j = i
          · subst hji
            rw [hcd'] at hj
            cases hj
          · have hj2 : contains_node d2 j = true := by
              show (lookupA d2.nodes j).isSome = true
              rw [← lookupA_eraseA_ne d2.nodes hji]
              exact hj
            exact hinv2.nsb j hj2
        · intro x y hxy
          have hxy2 : contains_edge d2 x y = true := hxy
          have hend := hinv2.endpoints x y hxy2
          have hxi : x ≠ i := by
            rintro rfl
            exact hEi y hxy2
          have hyi : y ≠ i := by
            rintro rfl
            exact hE2 x hxy2
          constructor
          · show (lookupA (eraseA d2.nodes i) x).isSome = true
            rw [lookupA_eraseA_ne d2.nodes hxi]
            exact hend.1
          · show (lookupA (eraseA d2.nodes i) y).isSome = true
            rw [lookupA_eraseA_ne d2.nodes hyi]
            exact hend.2
  · have hc' := bool_eq_false_of_not_true hc
    unfold remove_node at h
    rw [if_pos hc'] at h
    injection h with h
    have hrest := snd_eq_of_pair_eq h
    obtain rfl := snd_eq_of_pair_eq hrest
    refine ⟨hinv, hc', ?_, ?_, fun j => rfl, fun j => rfl⟩
    · intro x hx
      rw [(hinv.endpoints x i hx).2] at hc'
      cases hc'
    · intro y hy
      rw [(hinv.endpoints i y hy).1] at hc'
      cases hc'

/-- Every reachable state satisfies the invariant. -/
theorem reach_inv {d : Dag α β} (h : Reach d) : Inv d := by
  induction h with
  | empty => exact inv_new
  | insNode d i a _ ih => exact inv_insert_node i a ih
  | insEdge d f t b r d' _ heq ih => exact inv_insert_edge ih heq
  | remEdge d f t r d' _ heq ih => exact inv_remove_edge ih heq
  | remNode d i r bs d' _ heq ih => exact (remove_node_props ih heq).1

/-! ## Confirmed and amended claims -/

/-- Claim C3: for every sequence of public operations starting from the
empty container, the graph described by the forward edge index is acyclic
after every operation: there is no non-empty sequence of identifiers
`n0 -> n1 -> ... -> n0` in which each consecutive pair is a forward-index
edge. -/
theorem claim_C3 {α β : Type} (d : Dag α β) (h : Reach d) :
    ∀ n, ¬ Relation.TransGen (E d) n n :=
  (reach_inv h).acyc

theorem claim_C3_witness : ¬ Relation.TransGen (E (Dag.new : Dag Nat Nat)) 0 0 :=
  claim_C3 Dag.new Reach.empty 0

/-- Claim C5 (amended): in every reachable state an identifier in the node
map is also a key of both the forward and backward edge index; the
converse of the claimed equivalence fails after `remove_node`: the removed
identifier is gone from the node map but remains a key of both edge
indices (with empty inner containers). -/
theorem claim_C5 {α β : Type} (d : Dag α β) (h : Reach d) :
    (∀ i, contains_node d i = true →
      (lookupA d.edges i).isSome = true ∧ (lookupA d.back_edges i).isSome = true) ∧
    (∀ i ra bs d', contains_node d i = true → remove_node d i = some (ra, bs, d') →
      contains_node d' i = false ∧ (lookupA d'.edges i).isSome = true ∧
      (lookupA d'.back_edges i).isSome = true) := by
  have hinv := reach_inv h
  refine ⟨fun i hi => ⟨hinv.nse i hi, hinv.nsb i hi⟩, ?_⟩
  intro i ra bs d' hi hrem
  obtain ⟨-, hcd, -, -, hke, hkb⟩ := remove_node_props hinv hrem
  exact ⟨hcd, (hke i).trans (hinv.nse i hi), (hkb i).trans (hinv.nsb i hi)⟩

theorem claim_C5_witness :
    (lookupA dagN1.edges 1).isSome = true ∧ (lookupA dagN1.back_edges 1).isSome = true ∧
    contains_node dagN1r 1 = false ∧ (lookupA dagN1r.edges 1).isSome = true ∧
    (lookupA dagN1r.back_edges 1).isSome = true := by
  have h := claim_C5 dagN1 reach_dagN1
  have h1 := h.1 1 (by decide)
  have h2 := h.2 1 (some 0) [] dagN1r (by decide) (by decide)
  exact ⟨h1.1, h1.2, h2.1, h2.2.1, h2.2.2⟩

/-- Claim C7 (amended): in a reachable state with both endpoints in the
node map and no edge `(f, t)`, `remove_edge f t` returns `Ok(None)` and
leaves the node map and the forward index unchanged — the whole state is
unchanged when `f` is not a (stale) member of `t`'s backward set, which
mirror-consistent states guarantee.  Independently, for valid endpoints
`remove_edge` twice in a row equals `remove_edge` once. -/
theorem claim_C7 {α β : Type} (d : Dag α β) (f t : Nat) (h : Reach d)
    (hf : contains_node d f = true) (ht : contains_node d t = true) :
    (contains_edge d f t = false →
      ∃ d', remove_edge d f t = some (.ok none, d') ∧
        d'.nodes = d.nodes ∧ d'.edges = d.edges ∧
        (f ∉ parents d t → d' = d)) ∧
    (∀ r d1, remove_edge d f t = some (r, d1) →
      remove_edge d1 f t = some (.ok none, d1)) := by
  have hinv := reach_inv h
  obtain ⟨ch, hch⟩ := isSome_exists (hinv.nse f hf)
  obtain ⟨ps, hps⟩ := isSome_exists (hinv.nsb t ht)
  have hnodup_ch : (keysA ch).Nodup := nodup_of_sortedK (hinv.sinner f ch hch)
  have hnodup_ps : ps.Nodup := (hinv.sback_inner t ps hps).imp Nat.ne_of_lt
  constructor
  · intro hce
    have hnone : lookupA ch t = none := by
      cases hl : lookupA ch t with
      | none => rfl
      | some v =>
        exfalso
        have hcet : contains_edge d f t = true := by
          unfold contains_edge
          rw [hch]
          show (lookupA ch t).isSome = true
          rw [hl]
          rfl
        rw [hcet] at hce
        cases hce
    have het : eraseA ch t = ch :=
      eraseA_of_not_mem (fun hmem => by
        have hsm := (lookupA_isSome_iff ch t).mpr hmem
        rw [hnone] at hsm
        cases hsm)
    have hee : insertA d.edges f (eraseA ch t) = d.edges := by
      rw [het]
      exact insertA_eq_self hinv.sedges hch
    refine ⟨⟨d.nodes, insertA d.edges f (eraseA ch t),
      insertA d.back_edges t (eraseS ps f)⟩,
      by rw [remove_edge_eq hf ht hch hps, hnone], rfl, hee, ?_⟩
    intro hfp
    have hfps : f ∉ ps := by
      intro hfps
      apply hfp
      unfold parents
      rw [hps]
      exact hfps
    have hesp : eraseS ps f = ps := eraseS_of_not_mem hfps
    have heb : insertA d.back_edges t (eraseS ps f) = d.back_edges := by
      rw [hesp]
      exact insertA_eq_self hinv.sback hps
    show (⟨d.nodes, insertA d.edges f (eraseA ch t),
      insertA d.back_edges t (eraseS ps f)⟩ : Dag α β) = d
    rw [hee, heb]
  · intro r d1 hre
    rw [remove_edge_eq hf ht hch hps] at hre
    injection hre with hre
    obtain rfl := snd_eq_of_pair_eq hre
    have hch2 : lookupA (insertA d.edges f (eraseA ch t)) f = some (eraseA ch t) :=
      lookupA_insertA_self _ _ _
    have hps2 : lookupA (insertA d.back_edges t (eraseS ps f)) t = some (eraseS ps f) :=
      lookupA_insertA_self _ _ _
    have hre2 := remove_edge_eq (d := ⟨d.nodes, insertA d.edges f (eraseA ch t),
      insertA d.back_edges t (eraseS ps f)⟩) hf ht hch2 hps2
    rw [hre2]
    have h1 : lookupA (eraseA ch t) t = none := lookupA_eraseA_self t hnodup_ch
    have h2 : eraseA (eraseA ch t) t = eraseA ch t :=
      eraseA_of_not_mem (not_mem_keysA_eraseA t hnodup_ch)
    have h3 : eraseS (eraseS ps f) f = eraseS ps f :=
      eraseS_of_not_mem (not_mem_eraseS f hnodup_ps)
    have h4 : insertA (insertA d.edges f (eraseA ch t)) f (eraseA (eraseA ch t) t) =
        insertA d.edges f (eraseA ch t) := by
      rw [h2]
      exact insertA_eq_self (sortedK_insertA f _ hinv.sedges) hch2
    have h5 : insertA (insertA d.back_edges t (eraseS ps f)) t (eraseS (eraseS ps f) f) =
        insertA d.back_edges t (eraseS ps f) := by
      rw [h3]
      exact insertA_eq_self (sortedK_insertA t _ hinv.sback) hps2
    rw [h1, h4, h5]

theorem claim_C7_witness :
    (∃ d', remove_edge dag3 1 2 = some (.ok none, d') ∧
      d'.nodes = dag3.nodes ∧ d'.edges = dag3.edges ∧
      (1 ∉ parents dag3 2 → d' = dag3)) ∧
    remove_edge dag3 1 2 = some (.ok none, dag3) := by
  have h := claim_C7 dag3 1 2 reach_dag3 (by decide) (by decide)
  refine ⟨h.1 (by decide), ?_⟩
  obtain ⟨d', hd', -, -, heq⟩ := h.1 (by decide)
  rw [hd', heq (by decide)]

/-- Claim C8: in every reachable state `contains_edge` never errors and is
`false` whenever either endpoint is missing from the node map, while
`get_edge` returns `Err(NodeNotFound)` whenever either endpoint is missing
and `Ok(None)` when both endpoints exist but the edge does not. -/
theorem claim_C8 {α β : Type} (d : Dag α β) (f t : Nat) (h : Reach d) :
    ((contains_node d f = false ∨ contains_node d t = false) →
      contains_edge d f t = false) ∧
    (contains_node d f = false → get_edge d f t = some (.error (.nodeNotFound f))) ∧
    (contains_node d f = true → contains_node d t = false →
      get_edge d f t = some (.error (.nodeNotFound t))) ∧
    (contains_node d f = true → contains_node d t = true → contains_edge d f t = false →
      get_edge d f t = some (.ok none)) := by
  have hinv := reach_inv h
  refine ⟨?_, ?_, ?_, ?_⟩
  · intro habs
    cases hce : contains_edge d f t with
    | false => rfl
    | true =>
      exfalso
      have hend := hinv.endpoints f t hce
      rcases habs with hf | ht
      · rw [hend.1] at hf
        cases hf
      · rw [hend.2] at ht
        cases ht
  · intro hf
    unfold get_edge
    rw [if_pos hf]
  · intro hf ht
    unfold get_edge
    rw [if_neg (by simp [hf]), if_pos ht]
  · intro hf ht hce
    obtain ⟨ch, hch⟩ := isSome_exists (hinv.nse f hf)
    have hnone : lookupA ch t = none := by
      cases hl : lookupA ch t with
      | none => rfl
      | some v =>
        exfalso
        have hcet : contains_edge d f t = true := by
          unfold contains_edge
          rw [hch]
          show (lookupA ch t).isSome = true
          rw [hl]
          rfl
        rw [hcet] at hce
        cases hce
    unfold get_edge
    rw [if_neg (by simp [hf]), if_neg (by simp [ht]), hch]
    show some (Except.ok (lookupA ch t)) = some (.ok none)
    rw [hnone]

theorem claim_C8_witness :
    contains_edge dagN1 1 2 = false ∧
    get_edge dagN1 2 1 = some (.error (.nodeNotFound 2)) ∧
    get_edge dagN1 1 2 = some (.error (.nodeNotFound 2)) ∧
    get_edge dagN1 1 1 = some (.ok none) := by
  have h1 := claim_C8 dagN1 1 2 reach_dagN1
  have h2 := claim_C8 dagN1 2 1 reach_dagN1
  have h3 := claim_C8 dagN1 1 1 reach_dagN1
  exact ⟨h1.1 (Or.inr (by decide)), h2.2.1 (by decide),
    h1.2.2.1 (by decide) (by decide), h3.2.2.2 (by decide) (by decide) (by decide)⟩

/-- Claim C9: in every reachable state, inserting a self-loop on a present
node fails with `HasCycle(id, id, payload)`: the DFS visits `id` again
immediately. -/
theorem claim_C9 {α β : Type} (d : Dag α β) (i : Nat) (b : β) (h : Reach d)
    (hc : contains_node d i = true) :
    ∃ d', insert_edge d i i b = some (.error (.hasCycle i i b), d') := by
  have hinv := reach_inv h
  obtain ⟨ch, hch⟩ := isSome_exists (hinv.nse i hc)
  have hcyc : in_cycle (⟨d.nodes, insertA d.edges i (insertA ch i b),
      d.back_edges⟩ : Dag α β) i = true := by
    cases hcy : in_cycle (⟨d.nodes, insertA d.edges i (insertA ch i b),
        d.back_edges⟩ : Dag α β) i with
    | true => rfl
    | false =>
      exfalso
      apply in_cycle_false_no_cycle _ i hcy
      apply Relation.TransGen.single
      exact E_intro (d := ⟨d.nodes, insertA d.edges i (insertA ch i b), d.back_edges⟩)
        (lookupA_insertA_self _ _ _) ((mem_keysA_insertA ch i i b).mpr (Or.inl rfl))
  exact ⟨_, insert_edge_eq_cycle b hc hc hch hcyc⟩

theorem claim_C9_witness :
    contains_node dagN1 1 = true ∧
    (∃ d', insert_edge dagN1 1 1 5 = some (.error (.hasCycle 1 1 5), d')) :=
  ⟨by decide, claim_C9 dagN1 1 5 reach_dagN1 (by decide)⟩

/-- Claim C10: `insert_edge`, `remove_edge`, `get_edge` and `get_edge_mut`
check the `from` endpoint before the `to` endpoint: when both are absent
from the node map each returns `Err(NodeNotFound(from))`. -/
theorem claim_C10 {α β : Type} (d : Dag α β) (f t : Nat) (b : β)
    (hf : contains_node d f = false) (ht : contains_node d t = false) :
    insert_edge d f t b = some (.error (.nodeNotFound f), d) ∧
    remove_edge d f t = some (.error (.nodeNotFound f), d) ∧
    get_edge d f t = some (.error (.nodeNotFound f)) ∧
    get_edge_mut d f t = some (.error (.nodeNotFound f)) := by
  refine ⟨insert_edge_err_f t b hf, remove_edge_err_f t hf, ?_, ?_⟩
  · unfold get_edge
    rw [if_pos hf]
  · unfold get_edge_mut
    rw [if_pos hf]

theorem claim_C10_witness :
    contains_node (Dag.new : Dag Nat Nat) 5 = false ∧
    insert_edge (Dag.new : Dag Nat Nat) 5 7 0 = some (.error (.nodeNotFound 5), Dag.new) ∧
    remove_edge (Dag.new : Dag Nat Nat) 5 7 = some (.error (.nodeNotFound 5), Dag.new) ∧
    get_edge (Dag.new : Dag Nat Nat) 5 7 = some (.error (.nodeNotFound 5)) ∧
    get_edge_mut (Dag.new : Dag Nat Nat) 5 7 = some (.error (.nodeNotFound 5)) := by
  have h := claim_C10 (Dag.new : Dag Nat Nat) 5 7 0 (by decide) (by decide)
  exact ⟨by decide, h.1, h.2.1, h.2.2.1, h.2.2.2⟩

/-- Claim C1: a failed `insert_edge (HasCycle)` is claimed to leave the
observable state unchanged.  The code violates this: in the reachable
state `dagB3` the edge `1 → 3` exists with payload `10`, yet
`insert_edge 1 3 99` fails with `HasCycle` and afterwards the edge is gone
(`contains_edge` flips to `false` and `get_edge` returns `Ok(None)`),
because the rollback removes the forward entry instead of restoring the
previous payload. -/
theorem claim_C1 :
    Reach dagB3 ∧
    contains_edge dagB3 1 3 = true ∧
    get_edge dagB3 1 3 = some (.ok (some 10)) ∧
    insert_edge dagB3 1 3 99 = some (.error (.hasCycle 1 3 99), dagB4) ∧
    contains_edge dagB4 1 3 = false ∧
    get_edge dagB4 1 3 = some (.ok none) :=
  ⟨reach_dagB3, by decide, by decide, by decide, by decide, by decide⟩

/-- Claim C2: `insert_edge` is claimed to fail with `HasCycle` exactly when
a forward path from `to` back to `from` exists, and to always succeed when
the edge already exists.  The code violates both parts: in the reachable
state `dagA2` (edges `1→2`, `2→3`) there is no path from `3` to `1`, yet
`insert_edge 1 3 7` fails with `HasCycle` (the DFS reports the diamond
`1→2→3` / `1→3` as a cycle); and in `dagB3` the edge `1 → 3` already
exists, yet re-inserting it fails with `HasCycle` instead of returning
`Ok(Some(10))`. -/
theorem claim_C2 :
    insert_edge dagA2 1 3 7 = some (.error (.hasCycle 1 3 7), dagA2) ∧
    (¬ Relation.ReflTransGen (E dagA2) 3 1) ∧
    contains_edge dagB3 1 3 = true ∧
    insert_edge dagB3 1 3 99 = some (.error (.hasCycle 1 3 99), dagB4) := by
  refine ⟨by decide, ?_, by decide, by decide⟩
  intro hpath
  rcases Relation.reflTransGen_iff_eq_or_transGen.mp hpath with h1 | h1
  · exact absurd h1 (by omega)
  · exact absurd (transGen_lt E_dagA2_lt h1) (by omega)

/-- Claim C4: in every reachable state, `contains_edge f t` is claimed to
hold iff `f` is in the predecessor set of `t`.  The code violates this: in
the reachable state `dagB4` (after the failed re-insertion of `1 → 3`),
the forward edge `1 → 3` is gone but `1` is still a member of the backward
set of `3`. -/
theorem claim_C4 :
    Reach dagB4 ∧ contains_edge dagB4 1 3 = false ∧ 1 ∈ parents dagB4 3 :=
  ⟨reach_dagB4, by decide, by decide⟩

/-- Claim C6 (failing part): `remove_node` is claimed never to fail.  In
the reachable state `dagB4` the backward set of `3` contains the stale
parent `1` with no matching forward edge, so `remove_node 3` hits the
`unreachable!` panic in its parents loop (modelled as `none`). -/
theorem claim_C6 :
    Reach dagB4 ∧ contains_node dagB4 3 = true ∧ remove_node dagB4 3 = none :=
  ⟨reach_dagB4, by decide, by decide⟩

/-- Claim C5 (counterexample): the node map / edge-index key equivalence is
claimed to survive `remove_node`.  It does not: after `remove_node 1` on a
one-node container (a successful public operation producing the reachable
state `dagN1r`), `1` is no longer in the node map but is still a key of
both the forward and the backward index. -/
theorem claim_C5_cex :
    Reach dagN1r ∧ contains_node dagN1r 1 = false ∧
    (lookupA dagN1r.edges 1).isSome = true ∧
    (lookupA dagN1r.back_edges 1).isSome = true :=
  ⟨reach_dagN1r, by decide, by decide, by decide⟩

/-- Claim C7 (counterexample): `remove_edge` on an endpoint-valid,
non-existent edge is claimed to leave the state unchanged.  In the
reachable state `dagB4` both `1` and `3` are nodes and no edge `1 → 3`
exists, yet `remove_edge 1 3` returns `Ok(None)` and *changes* the state:
it strips the stale entry `1` from the backward set of `3` (yielding
exactly `dagA2`). -/
theorem claim_C7_cex :
    Reach dagB4 ∧ contains_node dagB4 1 = true ∧ contains_node dagB4 3 = true ∧
    contains_edge dagB4 1 3 = false ∧
    remove_edge dagB4 1 3 = some (.ok none, dagA2) ∧ dagA2 ≠ dagB4 :=
  ⟨reach_dagB4, by decide, by decide, by decide, by decide, by decide⟩

end Xdag
